import Mathlib

set_option maxRecDepth 100000

/-!
# Verification of the video-pipeline data-contract validators and pipeline core

This file gives a shallow embedding, in Lean 4, of the data-contract
validators (`src/video-pipeline/src/types/dataTypes.js`), the transcript
segmenter (`groupWordEntries` and friends), the translation coordinator
(`translateTranscription`), the translation batching configuration, and the
per-video orchestrator's cleanup skeleton (`processVideo`) of the video
ingestion pipeline, together with theorems settling the frozen claims.

Modelling conventions:
* JavaScript numbers are modelled as `Rat` (all inputs are finite; `NaN` /
  `Infinity` never arise on the modelled input universe, so the
  `Number.isFinite` / `Number.isNaN` guards of the source are identically
  true / false and are noted where they occur).
* JavaScript dynamic values are modelled over the typed sub-universe in which
  every present field has the type the validator expects; a field that is
  `undefined` (or carries a value of the wrong type, which every validator
  rejects before producing output) is modelled as `Option.none`.  All claims
  proved below are universally quantified over accepted inputs, and inputs
  outside the modelled sub-universe are rejected by the source validators,
  so the restriction does not weaken any of the proved statements.
* `ValidationError` is a structure carrying the human-readable message, and
  validators return `Except ValidationError α` (JS `throw` / return).
* String helpers (`trim`, `toLowerCase`, `toUpperCase`, regex tests) are
  implemented on the character list underlying `String`, mirroring the JS
  semantics on the character ranges actually used by the source.
-/

namespace VideoPipeline

/-! ## String primitives (JS `trim`, case mapping, regex character tests) -/

/-- JS `\s` / `String.prototype.trim` whitespace test. -/
def isJsWs (c : Char) : Bool := c.isWhitespace

/-- Characters matched by the source's `CYRILLIC_REGEX = /[А-Яа-яЁё]/`
(the ranges U+0410–U+042F and U+0430–U+044F are contiguous). -/
def isCyrillicChar (c : Char) : Bool :=
  ('А' ≤ c && c ≤ 'я') || c = 'Ё' || c = 'ё'

/-- Characters matched by the source's `LATIN_REGEX = /[A-Za-z]/`. -/
def isLatinChar (c : Char) : Bool :=
  ('A' ≤ c && c ≤ 'Z') || ('a' ≤ c && c ≤ 'z')

/-- `CYRILLIC_REGEX.test s`. -/
def hasCyrillic (s : String) : Bool := s.data.any isCyrillicChar

/-- `LATIN_REGEX.test s`. -/
def hasLatin (s : String) : Bool := s.data.any isLatinChar

/-- Character-list version of `String.prototype.trim`. -/
def trimChars (l : List Char) : List Char :=
  ((l.dropWhile isJsWs).reverse.dropWhile isJsWs).reverse

/-- JS `String.prototype.trim`. -/
def jsTrim (s : String) : String := ⟨trimChars s.data⟩

/-- JS `String.prototype.toLowerCase` (the source only lowercases ASCII
catalog/enum strings, on which `Char.toLower` agrees with JS). -/
def jsToLowerCase (s : String) : String := ⟨s.data.map Char.toLower⟩

/-- JS `String.prototype.toUpperCase` (used on CEFR levels, ASCII only). -/
def jsToUpperCase (s : String) : String := ⟨s.data.map Char.toUpper⟩

theorem head?_dropWhile_not (p : Char → Bool) (l : List Char) {c : Char}
    (h : (l.dropWhile p).head? = some c) : p c = false := by
  induction l with
  | nil => simp [List.dropWhile] at h
  | cons x xs ih =>
    by_cases hx : p x
    · rw [List.dropWhile_cons_of_pos hx] at h
      exact ih h
    · rw [List.dropWhile_cons_of_neg hx] at h
      simp at h
      subst h
      simpa using hx

theorem getLast?_cons_of_ne_nil {α : Type} (x : α) {xs : List α}
    (h : xs ≠ []) : (x :: xs).getLast? = xs.getLast? := by
  cases xs with
  | nil => exact absurd rfl h
  | cons y ys => simp [List.getLast?_cons_cons]

theorem getLast?_dropWhile (p : Char → Bool) (l : List Char)
    (h : l.dropWhile p ≠ []) : (l.dropWhile p).getLast? = l.getLast? := by
  induction l with
  | nil => simp [List.dropWhile] at h
  | cons x xs ih =>
    by_cases hx : p x
    · rw [List.dropWhile_cons_of_pos hx] at h ⊢
      rw [ih h, getLast?_cons_of_ne_nil]
      intro hnil
      rw [hnil] at h
      simp [List.dropWhile] at h
    · rw [List.dropWhile_cons_of_neg hx]

theorem dropWhile_eq_self_of_head? (p : Char → Bool) (l : List Char)
    (h : ∀ c, l.head? = some c → p c = false) : l.dropWhile p = l := by
  cases l with
  | nil => rfl
  | cons x xs =>
    have := h x (by simp)
    rw [List.dropWhile_cons_of_neg (by simp [this])]

/-- Every character that `trimChars` exposes at either end is non-whitespace. -/
theorem trimChars_clean (l : List Char) :
    (∀ c, (trimChars l).head? = some c → isJsWs c = false) ∧
    (∀ c, (trimChars l).getLast? = some c → isJsWs c = false) := by
  unfold trimChars
  constructor
  · intro c hc
    rw [List.head?_reverse] at hc
    by_cases hnil : (l.dropWhile isJsWs).reverse.dropWhile isJsWs = []
    · simp [hnil] at hc
    · rw [getLast?_dropWhile _ _ hnil, List.getLast?_reverse] at hc
      exact head?_dropWhile_not _ _ hc
  · intro c hc
    rw [List.getLast?_reverse] at hc
    exact head?_dropWhile_not _ _ hc

/-- `trim` is idempotent. -/
theorem trimChars_idem (l : List Char) : trimChars (trimChars l) = trimChars l := by
  obtain ⟨hhead, hlast⟩ := trimChars_clean l
  generalize hR : trimChars l = R at hhead hlast ⊢
  show trimChars R = R
  unfold trimChars
  rw [dropWhile_eq_self_of_head? _ _ hhead]
  rw [dropWhile_eq_self_of_head? _ _
        (fun c hc => hlast c (by rwa [List.head?_reverse] at hc))]
  simp

/-- `jsTrim` is idempotent. -/
theorem jsTrim_idem (s : String) : jsTrim (jsTrim s) = jsTrim s := by
  unfold jsTrim
  exact congrArg String.mk (trimChars_idem s.data)

/-! ## `ValidationError` and the assertion helpers of `dataTypes.js` -/

/-- The single error kind raised by the validators (`class ValidationError`).
Only the message is carried. -/
structure ValidationError where
  message : String
deriving Repr, DecidableEq

/-- `assertString(value, name)`: a missing (or non-string, which is outside
the modelled universe) value is an error; a present string is trimmed. -/
def assertString (value : Option String) (name : String) :
    Except ValidationError String :=
  match value with
  | none => .error ⟨name ++ " must be a string"⟩
  | some s => .ok (jsTrim s)

/-- `assertNumber(value, name)` (the `Number.isNaN` branch cannot fire on
the `Rat`-modelled universe). -/
def assertNumber (value : Option Rat) (name : String) :
    Except ValidationError Rat :=
  match value with
  | none => .error ⟨name ++ " must be a number"⟩
  | some q => .ok q

/-- `assertArray(value, name)`. -/
def assertArray {α : Type} (value : Option (List α)) (name : String) :
    Except ValidationError (List α) :=
  match value with
  | none => .error ⟨name ++ " must be an array"⟩
  | some l => .ok l

/-- `assertBoolean(value, name)`. -/
def assertBoolean (value : Option Bool) (name : String) :
    Except ValidationError Bool :=
  match value with
  | none => .error ⟨name ++ " must be a boolean"⟩
  | some b => .ok b

/-- `normalizeTimestamp(timestamp, index)`: a two-element numeric array. -/
def normalizeTimestamp (timestamp : Option (List Rat)) (index : Nat) :
    Except ValidationError (Rat × Rat) := do
  let arr ← assertArray timestamp ("chunks[" ++ toString index ++ "].timestamp")
  match arr with
  | [a, b] => do
      let x ← assertNumber (some a) ("chunks[" ++ toString index ++ "].timestamp[0]")
      let y ← assertNumber (some b) ("chunks[" ++ toString index ++ "].timestamp[1]")
      pure (x, y)
  | _ => .error ⟨"chunks[" ++ toString index ++ "].timestamp must have exactly 2 values"⟩

/-- JS `Array.prototype.map((x, index) => ...)` with a fallible body,
starting at index `i` (used so that inductive proofs can generalize `i`). -/
def mapWithIndexM {α β : Type} (f : Nat → α → Except ValidationError β) :
    Nat → List α → Except ValidationError (List β)
  | _, [] => .ok []
  | i, x :: xs => do
      let y ← f i x
      let ys ← mapWithIndexM f (i + 1) xs
      pure (y :: ys)

/-! ## Transcription / translation structures -/

/-- A validated chunk `{text, timestamp}` (the two-element timestamp array
is modelled as a pair). -/
structure Chunk where
  text : String
  timestamp : Rat × Rat
deriving Repr, DecidableEq

/-- The output of `validateTranscriptionStructure`:
`{ fullText, text: fullText, chunks }`. -/
structure Transcription where
  fullText : String
  text : String
  chunks : List Chunk
deriving Repr, DecidableEq

/-- A raw chunk as consumed by `validateTranscriptionStructure`
(either `timestamp` or the legacy `time` key may carry the pair). -/
structure RawChunk where
  text : Option String
  timestamp : Option (List Rat)
  time : Option (List Rat)
deriving Repr, DecidableEq

/-- A raw transcription-like object (`fullText ?? text ?? ''`). -/
structure RawTranscription where
  fullText : Option String
  text : Option String
  chunks : Option (List RawChunk)
deriving Repr, DecidableEq

/-- Body of the `chunksRaw.map((chunk, index) => ...)` callback. -/
def validateChunkAt (label : String) (index : Nat) (chunk : RawChunk) :
    Except ValidationError Chunk := do
  let text ← assertString (some (chunk.text.getD ""))
    (label ++ ".chunks[" ++ toString index ++ "].text")
  let timestamp ← normalizeTimestamp
    (some (((chunk.timestamp).orElse (fun _ => chunk.time)).getD [0, 0])) index
  pure { text, timestamp }

/-- `validateTranscriptionStructure(transcription, label)`.  The argument is
an `Option` so that the `!transcription || typeof transcription !== 'object'`
guard is representable (`none` = absent / non-object). -/
def validateTranscriptionStructure :
    Option RawTranscription → String → Except ValidationError Transcription
  | none, label => .error ⟨label ++ " must be an object"⟩
  | some t, label => do
      let fullText ← assertString
        (some (((t.fullText).orElse (fun _ => t.text)).getD ""))
        (label ++ ".fullText")
      let chunksRaw := t.chunks.getD []
      let chunks ← mapWithIndexM (validateChunkAt label) 0 chunksRaw
      pure { fullText, text := fullText, chunks }

/-- `validateTranslationStructure(translation)` — the same validator with
the fixed label `"translation"`. -/
def validateTranslationStructure (translation : Option RawTranscription) :
    Except ValidationError Transcription :=
  validateTranscriptionStructure translation "translation"

/-- Raw `TranscriptionVariants` object with the three views. -/
structure RawTranscriptionVariants where
  plain : Option RawTranscription
  phrases : Option RawTranscription
  words : Option RawTranscription
deriving Repr, DecidableEq

/-- The output of `validateTranscriptionVariantsStructure`. -/
structure TranscriptionVariants where
  plain : Transcription
  phrases : Transcription
  words : Transcription
  fullText : String
deriving Repr, DecidableEq

/-- `validateTranscriptionVariantsStructure(transcriptionVariants, label)`. -/
def validateTranscriptionVariantsStructure :
    Option RawTranscriptionVariants → String →
    Except ValidationError TranscriptionVariants
  | none, label => .error ⟨label ++ " must be an object"⟩
  | some v, label => do
      let plain ← validateTranscriptionStructure v.plain (label ++ ".plain")
      let phrases ← validateTranscriptionStructure v.phrases (label ++ ".phrases")
      let words ← validateTranscriptionStructure v.words (label ++ ".words")
      let baseText := plain.fullText
      if phrases.fullText ≠ baseText ∨ words.fullText ≠ baseText then
        .error ⟨label ++ " variants must share the same fullText"⟩
      else
        pure { plain, phrases, words, fullText := baseText }

theorem exBind_ok {α β : Type} (a : α) (f : α → Except ValidationError β) :
    (Except.ok a >>= f) = f a := rfl

theorem exBind_error {α β : Type} (e : ValidationError)
    (f : α → Except ValidationError β) :
    ((Except.error e : Except ValidationError α) >>= f) = Except.error e := rfl

/-- **C4.** The `TranscriptionVariants` validator succeeds only when the
trimmed `fullText` of the `plain`, `phrases` and `words` views are all
identical — (a) each view's validated `fullText` is the trimmed raw text,
(b) on success all three views (and the composite) share one `fullText`,
and (c) whenever the three views validate but their texts mismatch, the
validator raises a `ValidationError`. -/
theorem validateTranscriptionVariants_fullText_equality :
    (∀ (t : RawTranscription) (label : String) (r : Transcription),
       validateTranscriptionStructure (some t) label = .ok r →
       r.fullText = jsTrim (((t.fullText).orElse (fun _ => t.text)).getD "")) ∧
    (∀ (v : Option RawTranscriptionVariants) (label : String)
       (r : TranscriptionVariants),
       validateTranscriptionVariantsStructure v label = .ok r →
       r.phrases.fullText = r.plain.fullText ∧
       r.words.fullText = r.plain.fullText ∧
       r.fullText = r.plain.fullText) ∧
    (∀ (v : RawTranscriptionVariants) (label : String)
       (plain phrases words : Transcription),
       validateTranscriptionStructure v.plain (label ++ ".plain") = .ok plain →
       validateTranscriptionStructure v.phrases (label ++ ".phrases") = .ok phrases →
       validateTranscriptionStructure v.words (label ++ ".words") = .ok words →
       phrases.fullText ≠ plain.fullText ∨ words.fullText ≠ plain.fullText →
       validateTranscriptionVariantsStructure (some v) label =
         .error ⟨label ++ " variants must share the same fullText"⟩) := by
  refine ⟨?_, ?_, ?_⟩
  · intro t label r h
    unfold validateTranscriptionStructure at h
    simp only [assertString, exBind_ok] at h
    cases hm : mapWithIndexM (validateChunkAt label) 0 (t.chunks.getD []) with
    | ok chunks =>
      rw [hm, exBind_ok] at h
      cases h
      rfl
    | error e =>
      rw [hm, exBind_error] at h
      cases h
  · intro v label r h
    cases v with
    | none => simp [validateTranscriptionVariantsStructure] at h
    | some v =>
      simp only [validateTranscriptionVariantsStructure] at h
      cases h1 : validateTranscriptionStructure v.plain (label ++ ".plain") with
      | error e => rw [h1] at h; cases h
      | ok plain =>
        rw [h1, exBind_ok] at h
        cases h2 : validateTranscriptionStructure v.phrases (label ++ ".phrases") with
        | error e => rw [h2] at h; cases h
        | ok phrases =>
          rw [h2, exBind_ok] at h
          cases h3 : validateTranscriptionStructure v.words (label ++ ".words") with
          | error e => rw [h3] at h; cases h
          | ok words =>
            rw [h3, exBind_ok] at h
            by_cases hne : phrases.fullText ≠ plain.fullText ∨
                words.fullText ≠ plain.fullText
            · rw [if_pos hne] at h; cases h
            · rw [if_neg hne] at h
              push_neg at hne
              cases h
              exact ⟨hne.1, hne.2, rfl⟩
  · intro v label plain phrases words h1 h2 h3 hne
    simp only [validateTranscriptionVariantsStructure]
    rw [h1, exBind_ok, h2, exBind_ok, h3, exBind_ok, if_pos hne]

/-- A concrete raw transcription view used by the C4 witness. -/
def sampleRawView (s : String) : RawTranscription :=
  { fullText := some s, text := none, chunks := none }

/-- A concrete validated view used by the C4 witness. -/
def sampleView (s : String) : Transcription :=
  { fullText := s, text := s, chunks := [] }

/-- A matching variants object for the C4 witness. -/
def sampleVariantsMatching : RawTranscriptionVariants :=
  { plain := some (sampleRawView " hi "), phrases := some (sampleRawView "hi"),
    words := some (sampleRawView "hi") }

/-- A mismatching variants object for the C4 witness. -/
def sampleVariantsMismatching : RawTranscriptionVariants :=
  { plain := some (sampleRawView "hi"), phrases := some (sampleRawView "bye"),
    words := some (sampleRawView "hi") }

/-- Witness for C4 at concrete inputs: the trimmed text is what a view
reports, and a mismatching variants object is rejected. -/
theorem validateTranscriptionVariants_fullText_equality_witness :
    (sampleView "hi").fullText = jsTrim " hi " ∧
    validateTranscriptionVariantsStructure (some sampleVariantsMismatching)
      "transcription" =
      .error ⟨"transcription variants must share the same fullText"⟩ := by
  have hmain := validateTranscriptionVariants_fullText_equality
  constructor
  · exact hmain.1 (sampleRawView " hi ") "transcription" (sampleView "hi") rfl
  · exact hmain.2.2 sampleVariantsMismatching "transcription"
      (sampleView "hi") (sampleView "bye") (sampleView "hi")
      rfl rfl rfl (Or.inl (by decide))

/-! ## Configuration constants (`config.js`) and the analysis validator -/

/-- `config.cefrLevels`. -/
def cefrLevels : List String := ["A1", "A2", "B1", "B2", "C1", "C2"]

/-- `CEFR_LEVELS = config.cefrLevels`. -/
def CEFR_LEVELS : List String := cefrLevels

/-- `SPEECH_SPEEDS`. -/
def SPEECH_SPEEDS : List String := ["slow", "normal", "fast"]

/-- `GRAMMAR_COMPLEXITIES`. -/
def GRAMMAR_COMPLEXITIES : List String := ["simple", "intermediate", "complex"]

/-- `VOCABULARY_COMPLEXITIES`. -/
def VOCABULARY_COMPLEXITIES : List String := ["basic", "intermediate", "advanced"]

/-- `EXERCISE_TYPES`. -/
def EXERCISE_TYPES : List String := ["vocabulary", "topic", "statementCheck"]

/-- `config.videoTopics` — the closed topic catalog. -/
def videoTopics : List String :=
  ["Business", "Technology", "Science", "Health", "Education", "Entertainment",
   "Sports", "Travel", "Food", "Fashion", "Art", "Music", "Movies", "Gaming",
   "News", "Politics", "History", "Nature", "Animals", "Space", "Environment",
   "Social Issues", "Psychology", "Philosophy", "Lifestyle", "Relationships",
   "Career", "Finance", "Motivation", "Comedy", "Drama", "Documentary",
   "Tutorial", "Review", "Interview", "Vlog", "Challenge", "Story",
   "Daily Life", "Cooking", "DIY", "Beauty", "Fitness", "Product", "Unboxing",
   "Comparison", "Culture", "Language", "How-to", "Tips", "Reaction", "Prank",
   "Experiment", "Behind the Scenes"]

/-- JS object property assignment `acc[key] = value` on an association-list
model of a plain object (later assignments overwrite earlier ones). -/
def objAssign (acc : List (String × String)) (key value : String) :
    List (String × String) :=
  if acc.any (fun p => p.1 = key) then
    acc.map (fun p => if p.1 = key then (key, value) else p)
  else
    acc ++ [(key, value)]

/-- JS object property read `acc[key]` (with `|| null` at the call site). -/
def objGet (acc : List (String × String)) (key : String) : Option String :=
  (acc.find? (fun p => p.1 = key)).map (fun p => p.2)

/-- `TOPIC_LOOKUP = config.videoTopics.reduce((acc, topic) =>
{ acc[topic.toLowerCase()] = topic; return acc; }, {})`. -/
def TOPIC_LOOKUP : List (String × String) :=
  videoTopics.foldl (fun acc topic => objAssign acc (jsToLowerCase topic) topic) []

/-- The output of `validateAnalysisStructure`. -/
structure Analysis where
  cefrLevel : String
  speechSpeed : String
  grammarComplexity : String
  vocabularyComplexity : String
  topics : List String
  isAdultContent : Bool
deriving Repr, DecidableEq

/-- A raw analysis object.  Topic entries are `Option String` so that a
non-string element (which `assertString` rejects) is representable. -/
structure RawAnalysis where
  cefrLevel : Option String
  speechSpeed : Option String
  grammarComplexity : Option String
  vocabularyComplexity : Option String
  topics : Option (List (Option String))
  isAdultContent : Option Bool
deriving Repr, DecidableEq

/-- Body of the topics `.map((topic, index) => ...)` callback of
`validateAnalysisStructure`: trim, lowercase, catalog lookup
(`TOPIC_LOOKUP[value] || null`). -/
def topicLookupAt (index : Nat) (topic : Option String) :
    Except ValidationError (Option String) := do
  let value := jsToLowerCase (← assertString topic
    ("analysis.topics[" ++ toString index ++ "]"))
  pure (objGet TOPIC_LOOKUP value)

/-- The `topicsRaw.map(...).filter(Boolean)` stage of
`validateAnalysisStructure` (`filter(Boolean)` keeps exactly the non-null
lookups, every catalog entry being a non-empty string). -/
def mapTopics (topicsRaw : List (Option String)) :
    Except ValidationError (List String) := do
  let mapped ← mapWithIndexM topicLookupAt 0 topicsRaw
  pure (mapped.filterMap id)

/-- `Array.from(new Set(list))` — first-occurrence deduplication. -/
def jsSetDedupAux (seen : List String) : List String → List String
  | [] => []
  | x :: xs =>
      if seen.contains x then jsSetDedupAux seen xs
      else x :: jsSetDedupAux (seen ++ [x]) xs

/-- `Array.from(new Set(list))`. -/
def jsSetDedup (l : List String) : List String := jsSetDedupAux [] l

/-- `validateAnalysisStructure(analysis)`. -/
def validateAnalysisStructure :
    Option RawAnalysis → Except ValidationError Analysis
  | none => .error ⟨"analysis must be an object"⟩
  | some analysis => do
      let cefrLevel := jsToUpperCase
        (← assertString analysis.cefrLevel "analysis.cefrLevel")
      if ¬ CEFR_LEVELS.contains cefrLevel then
        .error ⟨"analysis.cefrLevel must be one of the CEFR levels"⟩
      else do
      let speechSpeed := jsToLowerCase
        (← assertString analysis.speechSpeed "analysis.speechSpeed")
      if ¬ SPEECH_SPEEDS.contains speechSpeed then
        .error ⟨"analysis.speechSpeed must be one of slow, normal, fast"⟩
      else do
      let grammarComplexity := jsToLowerCase
        (← assertString analysis.grammarComplexity "analysis.grammarComplexity")
      if ¬ GRAMMAR_COMPLEXITIES.contains grammarComplexity then
        .error ⟨"analysis.grammarComplexity must be one of simple, intermediate, complex"⟩
      else do
      let vocabularyComplexity := jsToLowerCase
        (← assertString analysis.vocabularyComplexity "analysis.vocabularyComplexity")
      if ¬ VOCABULARY_COMPLEXITIES.contains vocabularyComplexity then
        .error ⟨"analysis.vocabularyComplexity must be one of basic, intermediate, advanced"⟩
      else do
      let topicsRaw ← assertArray analysis.topics "analysis.topics"
      let topicsMapped ← mapTopics topicsRaw
      let topics := if topicsMapped.length ≠ 0 then
          (jsSetDedup topicsMapped).take 3
        else
          videoTopics.take 3
      let isAdultContent := analysis.isAdultContent.getD false
      pure { cefrLevel, speechSpeed, grammarComplexity, vocabularyComplexity,
             topics, isAdultContent }

/-! Supporting lemmas about the topic catalog lookup. -/

theorem objAssign_values_subset (acc : List (String × String)) (key value : String)
    (tops : List String) (hacc : ∀ p ∈ acc, p.2 ∈ tops) (hv : value ∈ tops) :
    ∀ p ∈ objAssign acc key value, p.2 ∈ tops := by
  intro p hp
  unfold objAssign at hp
  by_cases hmem : acc.any (fun p => p.1 = key)
  · rw [if_pos hmem] at hp
    obtain ⟨q, hq, hqp⟩ := List.mem_map.mp hp
    by_cases hk : q.1 = key
    · rw [if_pos hk] at hqp
      rw [← hqp]
      exact hv
    · rw [if_neg hk] at hqp
      rw [← hqp]
      exact hacc q hq
  · rw [if_neg hmem] at hp
    rcases List.mem_append.mp hp with h | h
    · exact hacc p h
    · simp at h
      rw [h]
      exact hv

theorem TOPIC_LOOKUP_values :
    ∀ p ∈ TOPIC_LOOKUP, p.2 ∈ videoTopics := by
  unfold TOPIC_LOOKUP
  have hgen : ∀ (l : List String) (acc : List (String × String)),
      (∀ p ∈ acc, p.2 ∈ videoTopics) → (∀ t ∈ l, t ∈ videoTopics) →
      ∀ p ∈ l.foldl (fun acc topic => objAssign acc (jsToLowerCase topic) topic) acc,
        p.2 ∈ videoTopics := by
    intro l
    induction l with
    | nil => intro acc hacc _ p hp; exact hacc p hp
    | cons t ts ih =>
      intro acc hacc hl p hp
      exact ih (objAssign acc (jsToLowerCase t) t)
        (objAssign_values_subset acc _ t videoTopics hacc (hl t (by simp)))
        (fun x hx => hl x (by simp [hx])) p hp
  exact hgen videoTopics [] (by simp) (fun t ht => ht)

theorem objGet_mem_values (acc : List (String × String)) (key t : String)
    (h : objGet acc key = some t) : ∃ p ∈ acc, p.2 = t := by
  unfold objGet at h
  cases hf : acc.find? (fun p => p.1 = key) with
  | none => rw [hf] at h; cases h
  | some p =>
    rw [hf] at h
    cases h
    exact ⟨p, List.mem_of_find?_eq_some hf, rfl⟩

/-- Every element produced by `mapWithIndexM` comes from a successful
application of the callback. -/
theorem mapWithIndexM_mem {α β : Type} (f : Nat → α → Except ValidationError β)
    (i : Nat) (l : List α) (out : List β)
    (h : mapWithIndexM f i l = .ok out) :
    ∀ b ∈ out, ∃ j a, f j a = .ok b := by
  induction l generalizing i out with
  | nil =>
    unfold mapWithIndexM at h
    cases h
    intro b hb
    cases hb
  | cons x xs ih =>
    unfold mapWithIndexM at h
    cases hf : f i x with
    | error e => rw [hf, exBind_error] at h; cases h
    | ok y =>
      rw [hf, exBind_ok] at h
      cases hrest : mapWithIndexM f (i + 1) xs with
      | error e => rw [hrest, exBind_error] at h; cases h
      | ok ys =>
        rw [hrest, exBind_ok] at h
        cases h
        intro b hb
        rcases List.mem_cons.mp hb with hb | hb
        · exact ⟨i, x, by rw [hf, hb]⟩
        · exact ih (i + 1) ys hrest b hb

/-- A successful topic lookup returns a catalog entry. -/
theorem topicLookupAt_mem (index : Nat) (topic : Option String) (t : String)
    (h : topicLookupAt index topic = .ok (some t)) : t ∈ videoTopics := by
  unfold topicLookupAt at h
  cases ha : assertString topic ("analysis.topics[" ++ toString index ++ "]") with
  | error e => rw [ha, exBind_error] at h; cases h
  | ok s =>
    rw [ha, exBind_ok] at h
    have hx : objGet TOPIC_LOOKUP (jsToLowerCase s) = some t := by
      simpa [pure, Except.pure] using h
    obtain ⟨p, hp, hpt⟩ := objGet_mem_values TOPIC_LOOKUP (jsToLowerCase s) t hx
    rw [← hpt]
    exact TOPIC_LOOKUP_values p hp

/-- Every topic surviving the `map`/`filter(Boolean)` stage is a canonical
catalog entry. -/
theorem mapTopics_mem (topicsRaw : List (Option String)) (out : List String)
    (h : mapTopics topicsRaw = .ok out) : ∀ t ∈ out, t ∈ videoTopics := by
  intro t ht
  unfold mapTopics at h
  cases hm : mapWithIndexM topicLookupAt 0 topicsRaw with
  | error e => rw [hm, exBind_error] at h; cases h
  | ok mapped =>
    rw [hm, exBind_ok] at h
    cases h
    obtain ⟨o, ho, hot⟩ := List.mem_filterMap.mp ht
    cases o with
    | none => cases hot
    | some s =>
      cases hot
      obtain ⟨j, a, hja⟩ := mapWithIndexM_mem topicLookupAt 0 topicsRaw mapped hm
        (some t) ho
      exact topicLookupAt_mem j a t hja

theorem assertString_ok {v : Option String} {n s : String}
    (h : assertString v n = .ok s) : ∃ r, v = some r ∧ s = jsTrim r := by
  cases v with
  | none => cases h
  | some r =>
    refine ⟨r, rfl, ?_⟩
    cases h
    rfl

theorem assertArray_ok {α : Type} {v : Option (List α)} {n : String}
    {l : List α} (h : assertArray v n = .ok l) : v = some l := by
  cases v with
  | none => cases h
  | some r => cases h; rfl

theorem jsSetDedupAux_subset (seen : List String) (l : List String) :
    ∀ x ∈ jsSetDedupAux seen l, x ∈ l := by
  induction l generalizing seen with
  | nil => intro x hx; cases hx
  | cons y ys ih =>
    intro x hx
    unfold jsSetDedupAux at hx
    by_cases hy : seen.contains y
    · rw [if_pos hy] at hx
      exact List.mem_cons_of_mem y (ih seen x hx)
    · rw [if_neg hy] at hx
      rcases List.mem_cons.mp hx with hx | hx
      · simp [hx]
      · exact List.mem_cons_of_mem y (ih (seen ++ [y]) x hx)

theorem jsSetDedupAux_not_mem (seen : List String) (l : List String) :
    ∀ x ∈ jsSetDedupAux seen l, ¬ x ∈ seen := by
  induction l generalizing seen with
  | nil => intro x hx; cases hx
  | cons y ys ih =>
    intro x hx
    unfold jsSetDedupAux at hx
    by_cases hy : seen.contains y
    · rw [if_pos hy] at hx
      exact ih seen x hx
    · rw [if_neg hy] at hx
      rcases List.mem_cons.mp hx with hx | hx
      · subst hx
        intro hmem
        exact hy (List.elem_eq_true_of_mem hmem)
      · intro hmem
        exact ih (seen ++ [y]) x hx (List.mem_append_left _ hmem)

theorem jsSetDedupAux_nodup (seen : List String) (l : List String) :
    (jsSetDedupAux seen l).Nodup := by
  induction l generalizing seen with
  | nil => exact List.nodup_nil
  | cons y ys ih =>
    unfold jsSetDedupAux
    by_cases hy : seen.contains y
    · rw [if_pos hy]
      exact ih seen
    · rw [if_neg hy]
      refine List.nodup_cons.mpr ⟨?_, ih (seen ++ [y])⟩
      intro hmem
      exact jsSetDedupAux_not_mem (seen ++ [y]) ys y hmem
        (List.mem_append_right _ (by simp))

/-- Inversion of a successful `validateAnalysisStructure` run. -/
theorem validateAnalysisStructure_ok_inv (a : RawAnalysis) (o : Analysis)
    (h : validateAnalysisStructure (some a) = .ok o) :
    o.cefrLevel ∈ CEFR_LEVELS ∧ o.speechSpeed ∈ SPEECH_SPEEDS ∧
    o.grammarComplexity ∈ GRAMMAR_COMPLEXITIES ∧
    o.vocabularyComplexity ∈ VOCABULARY_COMPLEXITIES ∧
    ∃ topicsRaw topicsMapped, a.topics = some topicsRaw ∧
      mapTopics topicsRaw = .ok topicsMapped ∧
      o.topics = (if topicsMapped.length ≠ 0 then (jsSetDedup topicsMapped).take 3
                  else videoTopics.take 3) := by
  simp only [validateAnalysisStructure] at h
  cases h1 : assertString a.cefrLevel "analysis.cefrLevel" with
  | error e => rw [h1, exBind_error] at h; cases h
  | ok s1 =>
  rw [h1, exBind_ok] at h
  by_cases g1 : ¬ CEFR_LEVELS.contains (jsToUpperCase s1)
  · rw [if_pos g1] at h; cases h
  rw [if_neg g1] at h
  cases h2 : assertString a.speechSpeed "analysis.speechSpeed" with
  | error e => rw [h2, exBind_error] at h; cases h
  | ok s2 =>
  rw [h2, exBind_ok] at h
  by_cases g2 : ¬ SPEECH_SPEEDS.contains (jsToLowerCase s2)
  · rw [if_pos g2] at h; cases h
  rw [if_neg g2] at h
  cases h3 : assertString a.grammarComplexity "analysis.grammarComplexity" with
  | error e => rw [h3, exBind_error] at h; cases h
  | ok s3 =>
  rw [h3, exBind_ok] at h
  by_cases g3 : ¬ GRAMMAR_COMPLEXITIES.contains (jsToLowerCase s3)
  · rw [if_pos g3] at h; cases h
  rw [if_neg g3] at h
  cases h4 : assertString a.vocabularyComplexity "analysis.vocabularyComplexity" with
  | error e => rw [h4, exBind_error] at h; cases h
  | ok s4 =>
  rw [h4, exBind_ok] at h
  by_cases g4 : ¬ VOCABULARY_COMPLEXITIES.contains (jsToLowerCase s4)
  · rw [if_pos g4] at h; cases h
  rw [if_neg g4] at h
  cases h5 : assertArray a.topics "analysis.topics" with
  | error e => rw [h5, exBind_error] at h; cases h
  | ok topicsRaw =>
  rw [h5, exBind_ok] at h
  cases h6 : mapTopics topicsRaw with
  | error e => rw [h6, exBind_error] at h; cases h
  | ok topicsMapped =>
  rw [h6, exBind_ok] at h
  cases h
  push_neg at g1 g2 g3 g4
  refine ⟨by simpa using g1, by simpa using g2, by simpa using g3,
    by simpa using g4, topicsRaw, topicsMapped, assertArray_ok h5, h6, rfl⟩

/-- **C6.** For every analysis object accepted by `validateAnalysisStructure`,
topics are looked up case-insensitively in the catalog and stored in the
catalog's canonical casing (every output topic is a catalog entry), the
output list has at most 3 entries, and when no input topic survives the
lookup the validator substitutes the first three catalog entries. -/
theorem validateAnalysis_topics_canonical :
    ∀ (a : RawAnalysis) (o : Analysis),
      validateAnalysisStructure (some a) = .ok o →
      o.topics.length ≤ 3 ∧ (∀ t ∈ o.topics, t ∈ videoTopics) ∧
      (∀ topicsRaw topicsMapped, a.topics = some topicsRaw →
        mapTopics topicsRaw = .ok topicsMapped →
        o.topics = (if topicsMapped.length ≠ 0 then
            (jsSetDedup topicsMapped).take 3 else videoTopics.take 3)) := by
  intro a o h
  obtain ⟨-, -, -, -, topicsRaw, topicsMapped, hraw, hmap, htop⟩ :=
    validateAnalysisStructure_ok_inv a o h
  refine ⟨?_, ?_, ?_⟩
  · rw [htop]
    by_cases hlen : topicsMapped.length ≠ 0
    · rw [if_pos hlen]
      rw [List.length_take]
      omega
    · rw [if_neg hlen]
      decide
  · intro t ht
    rw [htop] at ht
    by_cases hlen : topicsMapped.length ≠ 0
    · rw [if_pos hlen] at ht
      have ht' : t ∈ jsSetDedup topicsMapped := List.take_subset 3 _ ht
      have ht'' : t ∈ topicsMapped := jsSetDedupAux_subset [] topicsMapped t ht'
      exact mapTopics_mem topicsRaw topicsMapped hmap t ht''
    · rw [if_neg hlen] at ht
      exact List.take_subset 3 videoTopics ht
  · intro tr tm htr htm
    rw [htr] at hraw
    cases hraw
    rw [htm] at hmap
    cases hmap
    exact htop

/-- Sample raw analysis object for the C6 witness (mixed-case topics, one
unknown topic, one duplicate). -/
def sampleAnalysisRawC6 : RawAnalysis :=
  { cefrLevel := some "b1", speechSpeed := some "Normal",
    grammarComplexity := some "simple", vocabularyComplexity := some "basic",
    topics := some [some "technology", some "BUSINESS", some "nope",
                    some "Technology"],
    isAdultContent := none }

/-- Validated analysis for the C6 witness. -/
def sampleAnalysisC6 : Analysis :=
  { cefrLevel := "B1", speechSpeed := "normal", grammarComplexity := "simple",
    vocabularyComplexity := "basic", topics := ["Technology", "Business"],
    isAdultContent := false }

/-- Witness for C6 at a concrete input. -/
theorem validateAnalysis_topics_canonical_witness :
    sampleAnalysisC6.topics.length ≤ 3 ∧
    (∀ t ∈ sampleAnalysisC6.topics, t ∈ videoTopics) := by
  have h := validateAnalysis_topics_canonical sampleAnalysisRawC6
    sampleAnalysisC6 rfl
  exact ⟨h.1, h.2.1⟩

/-- **C10 (implicit).** The topics list returned by the analysis validator
never contains duplicates: even when the raw input repeats a catalog topic
(possibly in different casings), each canonical topic appears at most once. -/
theorem validateAnalysis_topics_nodup :
    ∀ (a : RawAnalysis) (o : Analysis),
      validateAnalysisStructure (some a) = .ok o → o.topics.Nodup := by
  intro a o h
  obtain ⟨-, -, -, -, topicsRaw, topicsMapped, hraw, hmap, htop⟩ :=
    validateAnalysisStructure_ok_inv a o h
  rw [htop]
  by_cases hlen : topicsMapped.length ≠ 0
  · rw [if_pos hlen]
    exact (jsSetDedupAux_nodup [] topicsMapped).sublist (List.take_sublist 3 _)
  · rw [if_neg hlen]
    decide

/-- Sample raw analysis object for the C10 witness: the same catalog topic
is supplied three times in different casings. -/
def sampleAnalysisRawC10 : RawAnalysis :=
  { cefrLevel := some "A2", speechSpeed := some "slow",
    grammarComplexity := some "simple", vocabularyComplexity := some "basic",
    topics := some [some "music", some "MUSIC", some "Music"],
    isAdultContent := some true }

/-- Validated analysis for the C10 witness. -/
def sampleAnalysisC10 : Analysis :=
  { cefrLevel := "A2", speechSpeed := "slow", grammarComplexity := "simple",
    vocabularyComplexity := "basic", topics := ["Music"],
    isAdultContent := true }

/-- Witness for C10 at a concrete input with repeated topics. -/
theorem validateAnalysis_topics_nodup_witness :
    sampleAnalysisC10.topics.Nodup :=
  validateAnalysis_topics_nodup sampleAnalysisRawC10 sampleAnalysisC10 rfl

/-! ## Exercises validator -/

/-- A raw exercise object.  The per-exercise normalization of
`validateExercisesStructure` returns `{ ...exercise, question, options,
correctAnswer, type }`, i.e. the same shape with normalized fields, so the
output of the validator also lives in this type. -/
structure RawExercise where
  type : Option String
  question : Option String
  options : Option (List String)
  correctAnswer : Option Rat
  word : Option String
deriving Repr, DecidableEq

/-- `validateVocabularyExercise(exercise, index)` (called with the trimmed
options spliced in; returns nothing, only throws). -/
def validateVocabularyExercise (exercise : RawExercise) (index : Nat) :
    Except ValidationError Unit := do
  let word := jsTrim (exercise.word.getD "")
  let options ← assertArray exercise.options
    ("exercise[" ++ toString index ++ "].options")
  if options.length < 3 ∨ options.length > 4 then
    .error ⟨"exercise[" ++ toString index ++ "].options must contain 3 or 4 items"⟩
  else do
  let wordHasCyrillic := hasCyrillic word
  let wordHasLatin := hasLatin word
  if ¬ wordHasCyrillic ∧ ¬ wordHasLatin then
    .error ⟨"exercise[" ++ toString index ++
      "].word must contain either Cyrillic or Latin characters"⟩
  else do
  let optionsAreCyrillic := options.all (fun option => hasCyrillic (jsTrim option))
  let optionsAreLatin := options.all (fun option => hasLatin (jsTrim option))
  if wordHasLatin ∧ ¬ optionsAreCyrillic then
    .error ⟨"exercise[" ++ toString index ++
      "] options must be Russian when word is English"⟩
  else if wordHasCyrillic ∧ ¬ optionsAreLatin then
    .error ⟨"exercise[" ++ toString index ++
      "] options must be English when word is Russian"⟩
  else
    pure ()

/-- `validateNonVocabularyOptions(exercise, index)`: only asserts each
option is a string, which is identically true on the typed universe (no
count or emptiness constraint in the source). -/
def validateNonVocabularyOptions (exercise : RawExercise) (index : Nat) :
    Except ValidationError Unit := do
  let _ ← mapWithIndexM (fun optIdx option => assertString (some option)
    ("exercise[" ++ toString index ++ "].options[" ++ toString optIdx ++ "]"))
    0 (exercise.options.getD [])
  pure ()

/-- The `correctAnswer` type check of `validateExercisesStructure`
(`typeof correctAnswer !== 'number' || !Number.isInteger(correctAnswer)`):
absent / non-number is `none`, and an integer is a rational with
denominator 1. -/
def assertIntegerIndex (value : Option Rat) (name : String) :
    Except ValidationError Rat :=
  match value with
  | none => .error ⟨name ++ " must be an integer index"⟩
  | some q =>
      if q.den = 1 then .ok q
      else .error ⟨name ++ " must be an integer index"⟩

theorem assertIntegerIndex_ok {v : Option Rat} {n : String} {q : Rat}
    (h : assertIntegerIndex v n = .ok q) : v = some q ∧ q.den = 1 := by
  cases v with
  | none => cases h
  | some r =>
    simp only [assertIntegerIndex] at h
    by_cases hd : r.den = 1
    · rw [if_pos hd] at h
      cases h
      exact ⟨rfl, hd⟩
    · rw [if_neg hd] at h
      cases h

/-- Body of the `assertArray(exercises).map((exercise, index) => ...)`
callback of `validateExercisesStructure`. -/
def validateExerciseAt (index : Nat) (exercise : RawExercise) :
    Except ValidationError RawExercise := do
  let type ← assertString exercise.type ("exercise[" ++ toString index ++ "].type")
  if ¬ EXERCISE_TYPES.contains type then
    .error ⟨"exercise[" ++ toString index ++
      "].type must be one of vocabulary, topic, statementCheck"⟩
  else do
  let question ← assertString exercise.question
    ("exercise[" ++ toString index ++ "].question")
  if ¬ hasCyrillic question then
    .error ⟨"exercise[" ++ toString index ++ "].question must contain Russian text"⟩
  else do
  let optionsRaw ← assertArray exercise.options
    ("exercise[" ++ toString index ++ "].options")
  let options ← mapWithIndexM (fun optIdx opt => assertString (some opt)
    ("exercise[" ++ toString index ++ "].options[" ++ toString optIdx ++ "]"))
    0 optionsRaw
  let correctAnswer ← assertIntegerIndex exercise.correctAnswer
    ("exercise[" ++ toString index ++ "].correctAnswer")
  if correctAnswer < 0 ∨ correctAnswer ≥ (options.length : Rat) then
    .error ⟨"exercise[" ++ toString index ++ "].correctAnswer out of range"⟩
  else do
  if type = "vocabulary" then
    let _ ← validateVocabularyExercise { exercise with options := some options } index
    pure ({ exercise with
            question := some question
            options := some options
            correctAnswer := some correctAnswer
            type := some type })
  else
    let _ ← validateNonVocabularyOptions { exercise with options := some options } index
    pure ({ exercise with
            question := some question
            options := some options
            correctAnswer := some correctAnswer
            type := some type })

/-- `validateExercisesStructure(exercises)`. -/
def validateExercisesStructure (exercises : Option (List RawExercise)) :
    Except ValidationError (List RawExercise) := do
  let arr ← assertArray exercises "exercises"
  let normalized ← mapWithIndexM validateExerciseAt 0 arr
  let vocabularyCount := (normalized.filter
    (fun ex => ex.type = some "vocabulary")).length
  let topicCount := (normalized.filter (fun ex => ex.type = some "topic")).length
  let statementCount := (normalized.filter
    (fun ex => ex.type = some "statementCheck")).length
  if vocabularyCount < 3 ∨ vocabularyCount > 4 then
    .error ⟨"Expected 3 or 4 vocabulary exercises"⟩
  else if topicCount ≠ 1 then
    .error ⟨"Expected exactly 1 topic exercise"⟩
  else if statementCount < 1 then
    .error ⟨"Expected at least 1 statementCheck exercise"⟩
  else
    pure normalized

theorem hasCyrillic_ne_empty {s : String} (h : hasCyrillic s = true) : s ≠ "" := by
  intro he
  rw [he] at h
  simp [hasCyrillic] at h

theorem hasLatin_ne_empty {s : String} (h : hasLatin s = true) : s ≠ "" := by
  intro he
  rw [he] at h
  simp [hasLatin] at h

theorem mapWithIndexM_assertString (name : Nat → String) :
    ∀ (i : Nat) (l : List String),
    mapWithIndexM (fun j s => assertString (some s) (name j)) i l =
      .ok (l.map jsTrim) := by
  intro i l
  induction l generalizing i with
  | nil => rfl
  | cons x xs ih =>
    unfold mapWithIndexM
    rw [show assertString (some x) (name i) = .ok (jsTrim x) from rfl,
        exBind_ok, ih (i + 1), exBind_ok]
    rfl

/-- Inversion of a successful `validateVocabularyExercise` run. -/
theorem validateVocabularyExercise_ok_inv (e : RawExercise) (index : Nat)
    (opts : List String) (hopts : e.options = some opts)
    (h : validateVocabularyExercise e index = .ok ()) :
    (3 ≤ opts.length ∧ opts.length ≤ 4) ∧
    (hasCyrillic (jsTrim (e.word.getD "")) = true ∨
     hasLatin (jsTrim (e.word.getD "")) = true) ∧
    (hasLatin (jsTrim (e.word.getD "")) = true →
      opts.all (fun option => hasCyrillic (jsTrim option)) = true) ∧
    (hasCyrillic (jsTrim (e.word.getD "")) = true →
      opts.all (fun option => hasLatin (jsTrim option)) = true) := by
  unfold validateVocabularyExercise at h
  rw [hopts] at h
  rw [show assertArray (some opts) ("exercise[" ++ toString index ++ "].options") =
        .ok opts from rfl, exBind_ok] at h
  by_cases g1 : opts.length < 3 ∨ opts.length > 4
  · rw [if_pos g1] at h; cases h
  rw [if_neg g1] at h
  by_cases g2 : (¬ hasCyrillic (jsTrim (e.word.getD "")) ∧
      ¬ hasLatin (jsTrim (e.word.getD "")) : Prop)
  · rw [if_pos g2] at h; cases h
  rw [if_neg g2] at h
  by_cases g3 : (hasLatin (jsTrim (e.word.getD "")) ∧
      ¬ opts.all (fun option => hasCyrillic (jsTrim option)) : Prop)
  · rw [if_pos g3] at h; cases h
  rw [if_neg g3] at h
  by_cases g4 : (hasCyrillic (jsTrim (e.word.getD "")) ∧
      ¬ opts.all (fun option => hasLatin (jsTrim option)) : Prop)
  · rw [if_pos g4] at h; cases h
  push_neg at g1 g2 g3 g4
  refine ⟨⟨by omega, by omega⟩, ?_, ?_, ?_⟩
  · by_cases hc : hasCyrillic (jsTrim (e.word.getD "")) = true
    · exact Or.inl hc
    · refine Or.inr ?_
      have := g2 (by simpa using hc)
      simpa using this
  · intro hl
    have := g3 hl
    simpa using this
  · intro hc
    have := g4 hc
    simpa using this

/-- Inversion of a successful `validateExerciseAt` run: the output is the
input with normalized `question`, `options`, `correctAnswer` and `type`
spliced in, and all per-exercise checks hold. -/
theorem validateExerciseAt_ok_inv (index : Nat) (e out : RawExercise)
    (h : validateExerciseAt index e = .ok out) :
    ∃ type question optionsRaw correctAnswer,
      out = { e with question := some question,
                     options := some (optionsRaw.map jsTrim),
                     correctAnswer := some correctAnswer,
                     type := some type } ∧
      e.options = some optionsRaw ∧
      type ∈ EXERCISE_TYPES ∧ hasCyrillic question = true ∧
      jsTrim type = type ∧ jsTrim question = question ∧
      correctAnswer.den = 1 ∧ 0 ≤ correctAnswer ∧
      correctAnswer < ((optionsRaw.map jsTrim).length : Rat) ∧
      (type = "vocabulary" →
        (3 ≤ optionsRaw.length ∧ optionsRaw.length ≤ 4) ∧
        (hasCyrillic (jsTrim (e.word.getD "")) = true ∨
         hasLatin (jsTrim (e.word.getD "")) = true) ∧
        (hasLatin (jsTrim (e.word.getD "")) = true →
          (optionsRaw.map jsTrim).all
            (fun option => hasCyrillic (jsTrim option)) = true) ∧
        (hasCyrillic (jsTrim (e.word.getD "")) = true →
          (optionsRaw.map jsTrim).all
            (fun option => hasLatin (jsTrim option)) = true)) := by
  unfold validateExerciseAt at h
  cases h1 : assertString e.type ("exercise[" ++ toString index ++ "].type") with
  | error err => rw [h1, exBind_error] at h; cases h
  | ok type =>
  rw [h1, exBind_ok] at h
  by_cases g1 : ¬ EXERCISE_TYPES.contains type
  · rw [if_pos g1] at h; cases h
  rw [if_neg g1] at h
  cases h2 : assertString e.question ("exercise[" ++ toString index ++ "].question") with
  | error err => rw [h2, exBind_error] at h; cases h
  | ok question =>
  rw [h2, exBind_ok] at h
  by_cases g2 : ¬ hasCyrillic question = true
  · rw [if_pos g2] at h; cases h
  rw [if_neg g2] at h
  cases h3 : assertArray e.options ("exercise[" ++ toString index ++ "].options") with
  | error err => rw [h3, exBind_error] at h; cases h
  | ok optionsRaw =>
  rw [h3, exBind_ok] at h
  rw [mapWithIndexM_assertString
        (fun j => "exercise[" ++ toString index ++ "].options[" ++ toString j ++ "]"),
      exBind_ok] at h
  cases hca : assertIntegerIndex e.correctAnswer
      ("exercise[" ++ toString index ++ "].correctAnswer") with
  | error err => rw [hca, exBind_error] at h; cases h
  | ok correctAnswer =>
  rw [hca, exBind_ok] at h
  have g3 := (assertIntegerIndex_ok hca).2
  by_cases g4 : correctAnswer < 0 ∨ correctAnswer ≥ ((optionsRaw.map jsTrim).length : Rat)
  · rw [if_pos g4] at h; cases h
  rw [if_neg g4] at h
  push_neg at g1 g2 g4
  by_cases g5 : type = "vocabulary"
  · rw [if_pos g5] at h
    cases h5 : validateVocabularyExercise { e with options := some (optionsRaw.map jsTrim) } index with
    | error err => rw [h5, exBind_error] at h; cases h
    | ok u =>
      cases u
      rw [h5, exBind_ok] at h
      cases h
      have hv := validateVocabularyExercise_ok_inv
        { e with options := some (optionsRaw.map jsTrim) } index
        (optionsRaw.map jsTrim) rfl h5
      refine ⟨type, question, optionsRaw, correctAnswer, rfl,
        assertArray_ok h3, by simpa using g1, g2,
        (by obtain ⟨r, -, hr⟩ := assertString_ok h1; rw [hr]; exact jsTrim_idem r),
        (by obtain ⟨r, -, hr⟩ := assertString_ok h2; rw [hr]; exact jsTrim_idem r),
        g3, g4.1, g4.2, ?_⟩
      intro _
      have hlen : (optionsRaw.map jsTrim).length = optionsRaw.length :=
        List.length_map _ _
      exact ⟨by rw [← hlen]; exact hv.1, hv.2.1, hv.2.2.1, hv.2.2.2⟩
  · rw [if_neg g5] at h
    cases h5 : validateNonVocabularyOptions { e with options := some (optionsRaw.map jsTrim) } index with
    | error err => rw [h5, exBind_error] at h; cases h
    | ok u =>
      cases u
      rw [h5, exBind_ok] at h
      cases h
      exact ⟨type, question, optionsRaw, correctAnswer, rfl,
        assertArray_ok h3, by simpa using g1, g2,
        (by obtain ⟨r, -, hr⟩ := assertString_ok h1; rw [hr]; exact jsTrim_idem r),
        (by obtain ⟨r, -, hr⟩ := assertString_ok h2; rw [hr]; exact jsTrim_idem r),
        g3, g4.1, g4.2, fun hvoc => absurd hvoc g5⟩

/-- Inversion of a successful `validateExercisesStructure` run. -/
theorem validateExercisesStructure_ok_inv (exercises : Option (List RawExercise))
    (out : List RawExercise) (h : validateExercisesStructure exercises = .ok out) :
    (∃ arr, exercises = some arr ∧ mapWithIndexM validateExerciseAt 0 arr = .ok out) ∧
    3 ≤ (out.filter (fun ex => ex.type = some "vocabulary")).length ∧
    (out.filter (fun ex => ex.type = some "vocabulary")).length ≤ 4 ∧
    (out.filter (fun ex => ex.type = some "topic")).length = 1 ∧
    1 ≤ (out.filter (fun ex => ex.type = some "statementCheck")).length := by
  unfold validateExercisesStructure at h
  cases h1 : assertArray exercises "exercises" with
  | error e => rw [h1, exBind_error] at h; cases h
  | ok arr =>
  rw [h1, exBind_ok] at h
  cases h2 : mapWithIndexM validateExerciseAt 0 arr with
  | error e => rw [h2, exBind_error] at h; cases h
  | ok normalized =>
  rw [h2, exBind_ok] at h
  by_cases g1 : (normalized.filter (fun ex => ex.type = some "vocabulary")).length < 3 ∨
      (normalized.filter (fun ex => ex.type = some "vocabulary")).length > 4
  · rw [if_pos g1] at h; cases h
  rw [if_neg g1] at h
  by_cases g2 : (normalized.filter (fun ex => ex.type = some "topic")).length ≠ 1
  · rw [if_pos g2] at h; cases h
  rw [if_neg g2] at h
  by_cases g3 : (normalized.filter (fun ex => ex.type = some "statementCheck")).length < 1
  · rw [if_pos g3] at h; cases h
  rw [if_neg g3] at h
  cases h
  push_neg at g1 g2 g3
  exact ⟨⟨arr, assertArray_ok h1, h2⟩, g1.1, g1.2, g2, g3⟩

/-- If three Boolean predicates are pairwise exclusive, the filtered lengths
add up to at most the list length. -/
theorem filter_three_disjoint_le {α : Type} (l : List α) (p q r : α → Bool)
    (hpq : ∀ x, ¬(p x = true ∧ q x = true))
    (hpr : ∀ x, ¬(p x = true ∧ r x = true))
    (hqr : ∀ x, ¬(q x = true ∧ r x = true)) :
    (l.filter p).length + (l.filter q).length + (l.filter r).length ≤ l.length := by
  induction l with
  | nil => simp
  | cons x xs ih =>
    have hqf : p x = true → q x = false := fun hp => by
      cases hq : q x
      · rfl
      · exact absurd ⟨hp, hq⟩ (hpq x)
    have hrf : p x = true → r x = false := fun hp => by
      cases hr : r x
      · rfl
      · exact absurd ⟨hp, hr⟩ (hpr x)
    have hrg : q x = true → r x = false := fun hq => by
      cases hr : r x
      · rfl
      · exact absurd ⟨hq, hr⟩ (hqr x)
    cases hp : p x with
    | true =>
      simp [List.filter_cons, hp, hqf hp, hrf hp]
      omega
    | false =>
      cases hq : q x with
      | true =>
        simp [List.filter_cons, hp, hq, hrg hq]
        omega
      | false =>
        cases hr : r x with
        | true =>
          simp [List.filter_cons, hp, hq, hr]
          omega
        | false =>
          simp [List.filter_cons, hp, hq, hr]
          omega

/-- **C1 (amended).** For every exercise array accepted by
`validateExercisesStructure`: the vocabulary count is 3 or 4, the topic
count is exactly 1, the statementCheck count is at least 1, the total is at
least 5 (the source places no upper bound on statementCheck exercises, so
the total may exceed 6), and every exercise has `correctAnswer` an integer
with `0 ≤ correctAnswer < |options|`; vocabulary exercises additionally
have 3 or 4 options, all non-empty (for non-vocabulary exercises the source
checks neither the option count nor option non-emptiness). -/
theorem validateExercises_composition :
    ∀ (exercises : Option (List RawExercise)) (out : List RawExercise),
      validateExercisesStructure exercises = .ok out →
      3 ≤ (out.filter (fun ex => ex.type = some "vocabulary")).length ∧
      (out.filter (fun ex => ex.type = some "vocabulary")).length ≤ 4 ∧
      (out.filter (fun ex => ex.type = some "topic")).length = 1 ∧
      1 ≤ (out.filter (fun ex => ex.type = some "statementCheck")).length ∧
      5 ≤ out.length ∧
      (∀ ex ∈ out, ∃ opts ca, ex.options = some opts ∧
        ex.correctAnswer = some ca ∧ ca.den = 1 ∧ 0 ≤ ca ∧
        ca < (opts.length : Rat) ∧
        (ex.type = some "vocabulary" →
          (3 ≤ opts.length ∧ opts.length ≤ 4) ∧ ∀ o ∈ opts, o ≠ "")) := by
  intro exercises out h
  obtain ⟨⟨arr, -, hmap⟩, hv3, hv4, ht1, hs1⟩ :=
    validateExercisesStructure_ok_inv exercises out h
  have htotal : 5 ≤ out.length := by
    have hdisj := filter_three_disjoint_le out
      (fun ex => ex.type = some "vocabulary")
      (fun ex => ex.type = some "topic")
      (fun ex => ex.type = some "statementCheck")
      (by intro x ⟨h1, h2⟩
          simp only [decide_eq_true_eq] at h1 h2
          rw [h1] at h2
          exact absurd h2 (by decide))
      (by intro x ⟨h1, h2⟩
          simp only [decide_eq_true_eq] at h1 h2
          rw [h1] at h2
          exact absurd h2 (by decide))
      (by intro x ⟨h1, h2⟩
          simp only [decide_eq_true_eq] at h1 h2
          rw [h1] at h2
          exact absurd h2 (by decide))
    omega
  refine ⟨hv3, hv4, ht1, hs1, htotal, ?_⟩
  intro ex hex
  obtain ⟨j, e, hje⟩ := mapWithIndexM_mem validateExerciseAt 0 arr out hmap ex hex
  obtain ⟨type, question, optionsRaw, correctAnswer, hout, -, -, -, -, -, hden,
    hge, hlt, hvoc⟩ := validateExerciseAt_ok_inv j e ex hje
  refine ⟨optionsRaw.map jsTrim, correctAnswer, by rw [hout], by rw [hout],
    hden, hge, hlt, ?_⟩
  intro htype
  have htype' : type = "vocabulary" := by
    rw [hout] at htype
    simpa using htype
  obtain ⟨⟨hlen3, hlen4⟩, hword, hlat, hcyr⟩ := hvoc htype'
  refine ⟨⟨by simpa using hlen3, by simpa using hlen4⟩, ?_⟩
  intro o ho
  rcases hword with hword | hword
  · -- Cyrillic word forces Latin-containing (hence non-empty) options
    have := List.all_eq_true.mp (hcyr hword) o ho
    obtain ⟨raw, -, hraw⟩ := List.mem_map.mp ho
    rw [← hraw]
    rw [← hraw] at this
    rw [jsTrim_idem] at this
    exact hasLatin_ne_empty (by simpa using this)
  · have := List.all_eq_true.mp (hlat hword) o ho
    obtain ⟨raw, -, hraw⟩ := List.mem_map.mp ho
    rw [← hraw]
    rw [← hraw] at this
    rw [jsTrim_idem] at this
    exact hasCyrillic_ne_empty (by simpa using this)

/-- A well-formed vocabulary exercise with an English word and Russian
options (already trimmed, so the validator returns it unchanged). -/
def vocabEx (w : String) (q : String) (opts : List String) : RawExercise :=
  { type := some "vocabulary", question := some q, options := some opts,
    correctAnswer := some 0, word := some w }

/-- A well-formed non-vocabulary exercise. -/
def plainEx (t : String) (q : String) (opts : List String) : RawExercise :=
  { type := some t, question := some q, options := some opts,
    correctAnswer := some 0, word := none }

/-- Seven exercises – 3 vocabulary, 1 topic, 3 statementCheck – the last of
which carries five options, one of them empty.  The source accepts this
array. -/
def sampleExercisesC1 : List RawExercise :=
  [vocabEx "cat" "Что значит cat?" ["кот", "пёс", "дом"],
   vocabEx "dog" "Что значит dog?" ["пёс", "кот", "стол"],
   vocabEx "sun" "Что значит sun?" ["солнце", "луна", "небо"],
   plainEx "topic" "Какая тема видео?" ["спорт", "еда", "наука"],
   plainEx "statementCheck" "Это правда?" ["да", "нет", "возможно"],
   plainEx "statementCheck" "Это так?" ["да", "нет", "может"],
   plainEx "statementCheck" "Верно ли это?" ["да", "нет", "", "не знаю", "частично"]]

/-- **C1 (counterexample).** The validator accepts an array of 7 exercises
(3 vocabulary + 1 topic + 3 statementCheck), refuting both "the total
number of exercises is 5 or 6" and "every exercise has 3 or 4 non-empty
string options": the accepted seventh exercise has five options, one of
which is the empty string. -/
theorem validateExercises_composition_cex :
    validateExercisesStructure (some sampleExercisesC1) = .ok sampleExercisesC1 ∧
    sampleExercisesC1.length = 7 ∧
    ¬ (sampleExercisesC1.length = 5 ∨ sampleExercisesC1.length = 6) ∧
    (∃ ex ∈ sampleExercisesC1, ∃ opts, ex.options = some opts ∧
      opts.length = 5 ∧ "" ∈ opts) := by
  refine ⟨rfl, rfl, by decide, ?_⟩
  refine ⟨plainEx "statementCheck" "Верно ли это?" ["да", "нет", "", "не знаю", "частично"],
    by decide, ["да", "нет", "", "не знаю", "частично"], rfl, rfl, by decide⟩

/-- Witness for the amended C1 at the concrete accepted input. -/
theorem validateExercises_composition_witness :
    3 ≤ (sampleExercisesC1.filter (fun ex => ex.type = some "vocabulary")).length ∧
    (sampleExercisesC1.filter (fun ex => ex.type = some "topic")).length = 1 ∧
    5 ≤ sampleExercisesC1.length := by
  have h := validateExercises_composition (some sampleExercisesC1)
    sampleExercisesC1 rfl
  exact ⟨h.1, h.2.2.1, h.2.2.2.2.1⟩

/-- **C3 (amended).** For every vocabulary exercise accepted by the
exercises validator: if the (trimmed) word contains Latin letters then
every option contains at least one Cyrillic letter, and if the word
contains Cyrillic letters then every option contains at least one Latin
letter.  (The source does not require the scripts to be disjoint — an
option may contain letters of both alphabets.) -/
theorem vocabulary_script_rule :
    ∀ (exercises : Option (List RawExercise)) (out : List RawExercise),
      validateExercisesStructure exercises = .ok out →
      ∀ ex ∈ out, ex.type = some "vocabulary" →
        ∃ opts, ex.options = some opts ∧
          (hasLatin (jsTrim (ex.word.getD "")) = true →
            ∀ o ∈ opts, hasCyrillic o = true) ∧
          (hasCyrillic (jsTrim (ex.word.getD "")) = true →
            ∀ o ∈ opts, hasLatin o = true) := by
  intro exercises out h ex hex htype
  obtain ⟨⟨arr, -, hmap⟩, -, -, -, -⟩ :=
    validateExercisesStructure_ok_inv exercises out h
  obtain ⟨j, e, hje⟩ := mapWithIndexM_mem validateExerciseAt 0 arr out hmap ex hex
  obtain ⟨type, question, optionsRaw, correctAnswer, hout, -, -, -, -, -, -, -,
    -, hvoc⟩ := validateExerciseAt_ok_inv j e ex hje
  have htype' : type = "vocabulary" := by
    rw [hout] at htype
    simpa using htype
  obtain ⟨-, -, hlat, hcyr⟩ := hvoc htype'
  have hword : ex.word = e.word := by rw [hout]
  refine ⟨optionsRaw.map jsTrim, by rw [hout], ?_, ?_⟩
  · intro hl o ho
    have := List.all_eq_true.mp (hlat (by rwa [hword] at hl)) o ho
    obtain ⟨raw, -, hraw⟩ := List.mem_map.mp ho
    rw [← hraw] at this ⊢
    rw [jsTrim_idem] at this
    simpa using this
  · intro hc o ho
    have := List.all_eq_true.mp (hcyr (by rwa [hword] at hc)) o ho
    obtain ⟨raw, -, hraw⟩ := List.mem_map.mp ho
    rw [← hraw] at this ⊢
    rw [jsTrim_idem] at this
    simpa using this

/-- Six exercises in which the first vocabulary exercise has an English
word and options that contain *both* Cyrillic and Latin letters. -/
def sampleExercisesC3 : List RawExercise :=
  [vocabEx "hello" "Что значит hello?" ["привет hi", "пока bye", "да yes"],
   vocabEx "dog" "Что значит dog?" ["пёс", "кот", "стол"],
   vocabEx "sun" "Что значит sun?" ["солнце", "луна", "небо"],
   plainEx "topic" "Какая тема видео?" ["спорт", "еда", "наука"],
   plainEx "statementCheck" "Это правда?" ["да", "нет", "возможно"],
   plainEx "statementCheck" "Это так?" ["да", "нет", "может"]]

/-- **C3 (counterexample).** The validator accepts a vocabulary exercise
whose word `"hello"` contains Latin letters while its option
`"привет hi"` also contains Latin letters — the scripts are not disjoint
alphabets. -/
theorem vocabulary_script_rule_cex :
    validateExercisesStructure (some sampleExercisesC3) = .ok sampleExercisesC3 ∧
    (∃ ex ∈ sampleExercisesC3, ex.type = some "vocabulary" ∧
      hasLatin (jsTrim (ex.word.getD "")) = true ∧
      ∃ opts, ex.options = some opts ∧ ∃ o ∈ opts, hasLatin o = true) := by
  refine ⟨rfl, vocabEx "hello" "Что значит hello?" ["привет hi", "пока bye", "да yes"],
    by decide, rfl, by decide, ["привет hi", "пока bye", "да yes"], rfl,
    "привет hi", by decide, by decide⟩

/-- Witness for the amended C3 at a concrete accepted input. -/
theorem vocabulary_script_rule_witness :
    ∃ opts, (vocabEx "dog" "Что значит dog?" ["пёс", "кот", "стол"]).options = some opts ∧
      (hasLatin (jsTrim ((vocabEx "dog" "Что значит dog?" ["пёс", "кот", "стол"]).word.getD "")) = true →
        ∀ o ∈ opts, hasCyrillic o = true) ∧
      (hasCyrillic (jsTrim ((vocabEx "dog" "Что значит dog?" ["пёс", "кот", "стол"]).word.getD "")) = true →
        ∀ o ∈ opts, hasLatin o = true) := by
  exact vocabulary_script_rule (some sampleExercisesC3) sampleExercisesC3 rfl
    (vocabEx "dog" "Что значит dog?" ["пёс", "кот", "стол"]) (by decide) rfl

/-! ## Validator idempotence: re-feeding a validated value -/

/-- A validated chunk viewed again as a raw chunk (the JSON shape the
validator re-consumes). -/
def Chunk.toRaw (c : Chunk) : RawChunk :=
  { text := some c.text, timestamp := some [c.timestamp.1, c.timestamp.2],
    time := none }

/-- A validated transcription viewed again as a raw transcription. -/
def Transcription.toRaw (t : Transcription) : RawTranscription :=
  { fullText := some t.fullText, text := some t.text,
    chunks := some (t.chunks.map Chunk.toRaw) }

/-- Validated variants viewed again as raw variants. -/
def TranscriptionVariants.toRaw (v : TranscriptionVariants) :
    RawTranscriptionVariants :=
  { plain := some v.plain.toRaw, phrases := some v.phrases.toRaw,
    words := some v.words.toRaw }

/-- A validated analysis viewed again as a raw analysis. -/
def Analysis.toRaw (a : Analysis) : RawAnalysis :=
  { cefrLevel := some a.cefrLevel, speechSpeed := some a.speechSpeed,
    grammarComplexity := some a.grammarComplexity,
    vocabularyComplexity := some a.vocabularyComplexity,
    topics := some (a.topics.map some),
    isAdultContent := some a.isAdultContent }

/-- Everything `mapWithIndexM` produces satisfies any property preserved by
the callback. -/
theorem mapWithIndexM_all {α β : Type} (f : Nat → α → Except ValidationError β)
    (P : β → Prop) (hf : ∀ i a b, f i a = .ok b → P b) :
    ∀ (i : Nat) (l : List α) (out : List β),
      mapWithIndexM f i l = .ok out → ∀ b ∈ out, P b := by
  intro i l out h b hb
  obtain ⟨j, a, hja⟩ := mapWithIndexM_mem f i l out h b hb
  exact hf j a b hja

/-- If the callback maps every embedded value back to itself, so does
`mapWithIndexM` on the embedded list. -/
theorem mapWithIndexM_fixed {α β : Type} (f : Nat → α → Except ValidationError β)
    (g : β → α) (P : β → Prop) (hg : ∀ i b, P b → f i (g b) = .ok b) :
    ∀ (i : Nat) (l : List β), (∀ b ∈ l, P b) →
      mapWithIndexM f i (l.map g) = .ok l := by
  intro i l
  induction l generalizing i with
  | nil => intro _; rfl
  | cons x xs ih =>
    intro hP
    show mapWithIndexM f i (g x :: xs.map g) = .ok (x :: xs)
    unfold mapWithIndexM
    rw [hg i x (hP x (by simp)), exBind_ok,
        ih (i + 1) (fun b hb => hP b (by simp [hb])), exBind_ok]
    rfl

/-- Chunk texts coming out of the validator are trimmed. -/
theorem validateChunkAt_trimmed (label : String) (i : Nat) (rc : RawChunk)
    (c : Chunk) (h : validateChunkAt label i rc = .ok c) :
    jsTrim c.text = c.text := by
  unfold validateChunkAt at h
  rw [show assertString (some (rc.text.getD ""))
        (label ++ ".chunks[" ++ toString i ++ "].text") =
      .ok (jsTrim (rc.text.getD "")) from rfl, exBind_ok] at h
  cases hts : normalizeTimestamp
      (some (((rc.timestamp).orElse (fun _ => rc.time)).getD [0, 0])) i with
  | error e => rw [hts, exBind_error] at h; cases h
  | ok ts =>
    rw [hts, exBind_ok] at h
    cases h
    exact jsTrim_idem _

/-- The chunk validator maps a validated chunk (with trimmed text) back to
itself. -/
theorem validateChunkAt_toRaw (label : String) (i : Nat) (c : Chunk)
    (ht : jsTrim c.text = c.text) :
    validateChunkAt label i c.toRaw = .ok c := by
  unfold validateChunkAt Chunk.toRaw
  rw [show assertString (some ((some c.text).getD ""))
        (label ++ ".chunks[" ++ toString i ++ "].text") =
      .ok (jsTrim c.text) from rfl, exBind_ok, ht]
  rw [show normalizeTimestamp
        (some (((some [c.timestamp.1, c.timestamp.2]).orElse
          (fun _ => (none : Option (List Rat)))).getD [0, 0])) i =
      .ok (c.timestamp.1, c.timestamp.2) from rfl, exBind_ok]
  rfl

/-- Inversion of a successful `validateTranscriptionStructure` run:
the output texts are trimmed, `text` mirrors `fullText`, and every chunk
text is trimmed. -/
theorem validateTranscriptionStructure_ok_shape (t : RawTranscription)
    (label : String) (y : Transcription)
    (h : validateTranscriptionStructure (some t) label = .ok y) :
    jsTrim y.fullText = y.fullText ∧ y.text = y.fullText ∧
    (∀ c ∈ y.chunks, jsTrim c.text = c.text) := by
  simp only [validateTranscriptionStructure] at h
  rw [show assertString (some (((t.fullText).orElse (fun _ => t.text)).getD ""))
        (label ++ ".fullText") =
      .ok (jsTrim (((t.fullText).orElse (fun _ => t.text)).getD "")) from rfl,
      exBind_ok] at h
  cases hm : mapWithIndexM (validateChunkAt label) 0 (t.chunks.getD []) with
  | error e => rw [hm, exBind_error] at h; cases h
  | ok chunks =>
    rw [hm, exBind_ok] at h
    cases h
    exact ⟨jsTrim_idem _, rfl,
      mapWithIndexM_all (validateChunkAt label) _
        (fun i rc c hc => validateChunkAt_trimmed label i rc c hc)
        0 _ chunks hm⟩

/-- The transcription validator maps its own output back to itself
(under any label). -/
theorem validateTranscriptionStructure_roundtrip (t : Option RawTranscription)
    (label label2 : String) (y : Transcription)
    (h : validateTranscriptionStructure t label = .ok y) :
    validateTranscriptionStructure (some y.toRaw) label2 = .ok y := by
  cases t with
  | none => cases h
  | some t0 =>
  obtain ⟨hft, htx, hcs⟩ := validateTranscriptionStructure_ok_shape t0 label y h
  simp only [validateTranscriptionStructure, Transcription.toRaw]
  rw [show assertString
        (some (((some y.fullText).orElse (fun _ => some y.text)).getD ""))
        (label2 ++ ".fullText") = .ok (jsTrim y.fullText) from rfl,
      exBind_ok, hft]
  rw [show ((some (y.chunks.map Chunk.toRaw) : Option (List RawChunk)).getD []) =
        y.chunks.map Chunk.toRaw from rfl]
  rw [mapWithIndexM_fixed (validateChunkAt label2) Chunk.toRaw
        (fun c => jsTrim c.text = c.text)
        (fun i c hc => validateChunkAt_toRaw label2 i c hc) 0 y.chunks hcs,
      exBind_ok]
  show Except.ok { fullText := y.fullText, text := y.fullText, chunks := y.chunks } =
    Except.ok y
  cases y with
  | mk ft tx cs =>
    simp only at htx ⊢
    rw [htx]

theorem assertString_some (s n : String) : assertString (some s) n = .ok (jsTrim s) := rfl

theorem assertArray_some {α : Type} (l : List α) (n : String) :
    assertArray (some l) n = .ok l := rfl

theorem assertIntegerIndex_of_den {q : Rat} (n : String) (h : q.den = 1) :
    assertIntegerIndex (some q) n = .ok q := by
  simp only [assertIntegerIndex]
  rw [if_pos h]

/-- Constructor direction for `validateVocabularyExercise`. -/
theorem validateVocabularyExercise_ok_of (e : RawExercise) (index : Nat)
    (opts : List String) (hopts : e.options = some opts)
    (hlen : 3 ≤ opts.length ∧ opts.length ≤ 4)
    (hword : hasCyrillic (jsTrim (e.word.getD "")) = true ∨
             hasLatin (jsTrim (e.word.getD "")) = true)
    (hlat : hasLatin (jsTrim (e.word.getD "")) = true →
      opts.all (fun option => hasCyrillic (jsTrim option)) = true)
    (hcyr : hasCyrillic (jsTrim (e.word.getD "")) = true →
      opts.all (fun option => hasLatin (jsTrim option)) = true) :
    validateVocabularyExercise e index = .ok () := by
  unfold validateVocabularyExercise
  rw [hopts, assertArray_some, exBind_ok]
  rw [if_neg (by omega : ¬(opts.length < 3 ∨ opts.length > 4))]
  rw [if_neg (by
    intro ⟨h1, h2⟩
    rcases hword with hw | hw
    · exact h1 hw
    · exact h2 hw)]
  rw [if_neg (by
    intro ⟨h1, h2⟩
    exact h2 (hlat h1))]
  rw [if_neg (by
    intro ⟨h1, h2⟩
    exact h2 (hcyr h1))]
  rfl

/-- `validateNonVocabularyOptions` always succeeds on the typed universe. -/
theorem validateNonVocabularyOptions_ok (e : RawExercise) (index : Nat) :
    validateNonVocabularyOptions e index = .ok () := by
  unfold validateNonVocabularyOptions
  rw [mapWithIndexM_assertString
        (fun j => "exercise[" ++ toString index ++ "].options[" ++ toString j ++ "]"),
      exBind_ok]
  rfl

/-- The per-exercise validator maps its own output back to itself, under
any position index. -/
theorem validateExerciseAt_fixed (index j : Nat) (e out : RawExercise)
    (h : validateExerciseAt index e = .ok out) :
    validateExerciseAt j out = .ok out := by
  obtain ⟨type, question, optionsRaw, ca, hout, hopts, hmem, hqcyr, htytrim,
    hqtrim, hden, hge, hlt, hvoc⟩ := validateExerciseAt_ok_inv index e out h
  have hty : out.type = some type := by rw [hout]
  have hq : out.question = some question := by rw [hout]
  have hop : out.options = some (optionsRaw.map jsTrim) := by rw [hout]
  have hca : out.correctAnswer = some ca := by rw [hout]
  have hw : out.word = e.word := by rw [hout]
  have hmapidem : (optionsRaw.map jsTrim).map jsTrim = optionsRaw.map jsTrim := by
    rw [List.map_map]
    exact List.map_congr_left (fun x _ => jsTrim_idem x)
  unfold validateExerciseAt
  rw [hty, assertString_some, exBind_ok, htytrim]
  rw [if_neg (not_not_intro (List.elem_eq_true_of_mem hmem))]
  rw [hq, assertString_some, exBind_ok, hqtrim]
  rw [if_neg (not_not_intro hqcyr)]
  rw [hop, assertArray_some, exBind_ok]
  rw [mapWithIndexM_assertString
        (fun k => "exercise[" ++ toString j ++ "].options[" ++ toString k ++ "]"),
      exBind_ok, hmapidem]
  rw [hca, assertIntegerIndex_of_den _ hden, exBind_ok]
  rw [if_neg (by
    intro hcon
    rcases hcon with hcon | hcon
    · exact absurd hge (not_le.mpr hcon)
    · exact absurd hlt (not_lt.mpr hcon))]
  have hupd : ({ out with
                 question := some question
                 options := some (optionsRaw.map jsTrim)
                 correctAnswer := some ca
                 type := some type } : RawExercise) = out := by
    rw [hout]
  by_cases hvt : type = "vocabulary"
  · rw [if_pos hvt]
    obtain ⟨⟨h3, h4⟩, hword, hlat, hcyr⟩ := hvoc hvt
    have hvv : validateVocabularyExercise
        { type := some type, question := some question,
          options := some (optionsRaw.map jsTrim),
          correctAnswer := some ca, word := out.word } j = .ok () := by
      refine validateVocabularyExercise_ok_of _ j (optionsRaw.map jsTrim) rfl
        ⟨by simpa using h3, by simpa using h4⟩ ?_ ?_ ?_
      · show hasCyrillic (jsTrim (out.word.getD "")) = true ∨
          hasLatin (jsTrim (out.word.getD "")) = true
        rw [hw]; exact hword
      · show hasLatin (jsTrim (out.word.getD "")) = true → _
        rw [hw]; exact hlat
      · show hasCyrillic (jsTrim (out.word.getD "")) = true → _
        rw [hw]; exact hcyr
    rw [hvv, exBind_ok, hupd]
    rfl
  · rw [if_neg hvt]
    rw [validateNonVocabularyOptions_ok _ j, exBind_ok, hupd]
    rfl

/-- A fixed-point version of `mapWithIndexM_fixed` (no embedding map). -/
theorem mapWithIndexM_fixed_self {α : Type}
    (f : Nat → α → Except ValidationError α) (P : α → Prop)
    (hg : ∀ i b, P b → f i b = .ok b) :
    ∀ (i : Nat) (l : List α), (∀ b ∈ l, P b) → mapWithIndexM f i l = .ok l := by
  intro i l
  induction l generalizing i with
  | nil => intro _; rfl
  | cons x xs ih =>
    intro hP
    unfold mapWithIndexM
    rw [hg i x (hP x (by simp)), exBind_ok,
        ih (i + 1) (fun b hb => hP b (by simp [hb])), exBind_ok]
    rfl

/-- The exercises validator maps its own output back to itself. -/
theorem validateExercisesStructure_roundtrip
    (exercises : Option (List RawExercise)) (out : List RawExercise)
    (h : validateExercisesStructure exercises = .ok out) :
    validateExercisesStructure (some out) = .ok out := by
  obtain ⟨⟨arr, -, hmap⟩, hv3, hv4, ht1, hs1⟩ :=
    validateExercisesStructure_ok_inv exercises out h
  have hall : ∀ ex ∈ out, ∀ k, validateExerciseAt k ex = .ok ex :=
    mapWithIndexM_all validateExerciseAt _
      (fun i a b hb k => validateExerciseAt_fixed i k a b hb) 0 arr out hmap
  unfold validateExercisesStructure
  rw [assertArray_some, exBind_ok]
  rw [mapWithIndexM_fixed_self validateExerciseAt
        (fun ex => ∀ k, validateExerciseAt k ex = .ok ex)
        (fun i b hb => hb i) 0 out hall, exBind_ok]
  rw [if_neg (by omega : ¬((out.filter (fun ex => ex.type = some "vocabulary")).length < 3 ∨
        (out.filter (fun ex => ex.type = some "vocabulary")).length > 4))]
  rw [if_neg (not_not_intro ht1)]
  rw [if_neg (by omega : ¬((out.filter (fun ex => ex.type = some "statementCheck")).length < 1))]
  rfl

theorem cefr_self_norm : ∀ s ∈ CEFR_LEVELS, jsToUpperCase (jsTrim s) = s := by
  decide

theorem speech_self_norm : ∀ s ∈ SPEECH_SPEEDS, jsToLowerCase (jsTrim s) = s := by
  decide

theorem grammar_self_norm : ∀ s ∈ GRAMMAR_COMPLEXITIES,
    jsToLowerCase (jsTrim s) = s := by
  decide

theorem vocabulary_self_norm : ∀ s ∈ VOCABULARY_COMPLEXITIES,
    jsToLowerCase (jsTrim s) = s := by
  decide

/-- Every canonical catalog entry survives the trim / lowercase / lookup
round trip. -/
theorem catalog_roundtrip :
    ∀ t ∈ videoTopics, objGet TOPIC_LOOKUP (jsToLowerCase (jsTrim t)) = some t := by
  decide

theorem jsSetDedupAux_of_nodup (l : List String) :
    ∀ seen, l.Nodup → (∀ x ∈ l, ¬ x ∈ seen) → jsSetDedupAux seen l = l := by
  induction l with
  | nil => intro seen _ _; rfl
  | cons x xs ih =>
    intro seen hn hd
    unfold jsSetDedupAux
    rw [if_neg (by
      intro hc
      exact hd x (by simp) (List.mem_of_elem_eq_true hc))]
    rw [ih (seen ++ [x]) (List.nodup_cons.mp hn).2 (by
      intro y hy hmem
      rcases List.mem_append.mp hmem with hmem | hmem
      · exact hd y (by simp [hy]) hmem
      · simp at hmem
        rw [hmem] at hy
        exact (List.nodup_cons.mp hn).1 hy)]

/-- The topic lookup fixes embedded canonical lists. -/
theorem mapWithIndexM_topicLookup_self :
    ∀ (i : Nat) (topics : List String), (∀ t ∈ topics, t ∈ videoTopics) →
    mapWithIndexM topicLookupAt i (topics.map some) = .ok (topics.map some) := by
  intro i topics
  induction topics generalizing i with
  | nil => intro _; rfl
  | cons t ts ih =>
    intro hmem
    show mapWithIndexM topicLookupAt i (some t :: ts.map some) = _
    unfold mapWithIndexM
    have h1 : topicLookupAt i (some t) = .ok (some t) := by
      unfold topicLookupAt
      rw [assertString_some, exBind_ok]
      show pure (objGet TOPIC_LOOKUP (jsToLowerCase (jsTrim t))) =
        (Except.ok (some t) : Except ValidationError (Option String))
      rw [catalog_roundtrip t (hmem t (by simp))]
      rfl
    rw [h1, exBind_ok, ih (i + 1) (fun x hx => hmem x (by simp [hx])), exBind_ok]
    rfl

/-- `mapTopics` fixes canonical topic lists. -/
theorem mapTopics_roundtrip (topics : List String)
    (h : ∀ t ∈ topics, t ∈ videoTopics) :
    mapTopics (topics.map some) = .ok topics := by
  unfold mapTopics
  rw [mapWithIndexM_topicLookup_self 0 topics h, exBind_ok]
  simp only [List.filterMap_map, Option.some_bind]
  show pure (topics.filterMap some) = Except.ok topics
  rw [List.filterMap_some]
  rfl

/-- Topic facts about the output of a successful analysis validation. -/
theorem validateAnalysis_topics_shape (a : RawAnalysis) (o : Analysis)
    (h : validateAnalysisStructure (some a) = .ok o) :
    (∀ t ∈ o.topics, t ∈ videoTopics) ∧ o.topics.Nodup ∧
    o.topics.length ≤ 3 ∧ o.topics ≠ [] := by
  obtain ⟨-, -, -, -, topicsRaw, topicsMapped, hraw, hmap, htop⟩ :=
    validateAnalysisStructure_ok_inv a o h
  by_cases hlen : topicsMapped.length ≠ 0
  · rw [if_pos hlen] at htop
    have hsub : ∀ t ∈ o.topics, t ∈ videoTopics := by
      intro t ht
      rw [htop] at ht
      exact mapTopics_mem topicsRaw topicsMapped hmap t
        (jsSetDedupAux_subset [] topicsMapped t (List.take_subset 3 _ ht))
    refine ⟨hsub, ?_, ?_, ?_⟩
    · rw [htop]
      exact (jsSetDedupAux_nodup [] topicsMapped).sublist (List.take_sublist 3 _)
    · rw [htop, List.length_take]
      omega
    · rw [htop]
      cases hm : topicsMapped with
      | nil => rw [hm] at hlen; simp at hlen
      | cons x xs =>
        have : jsSetDedup (x :: xs) = x :: jsSetDedupAux [x] xs := by
          show jsSetDedupAux [] (x :: xs) = x :: jsSetDedupAux [x] xs
          simp only [jsSetDedupAux]
          rw [if_neg (by simp), List.nil_append]
        rw [this]
        simp
  · rw [if_neg hlen] at htop
    rw [htop]
    refine ⟨fun t ht => List.take_subset 3 _ ht, by decide, by decide, by decide⟩

/-- The analysis validator maps its own output back to itself. -/
theorem validateAnalysisStructure_roundtrip (a : Option RawAnalysis) (o : Analysis)
    (h : validateAnalysisStructure a = .ok o) :
    validateAnalysisStructure (some o.toRaw) = .ok o := by
  cases a with
  | none => cases h
  | some a0 =>
  obtain ⟨hc, hs, hg, hv, -, -, -, -, -⟩ :=
    validateAnalysisStructure_ok_inv a0 o h
  obtain ⟨hmem, hnodup, hlen, hne⟩ := validateAnalysis_topics_shape a0 o h
  simp only [validateAnalysisStructure, Analysis.toRaw]
  rw [assertString_some, exBind_ok, cefr_self_norm o.cefrLevel hc]
  rw [if_neg (not_not_intro (List.elem_eq_true_of_mem hc))]
  rw [assertString_some, exBind_ok, speech_self_norm o.speechSpeed hs]
  rw [if_neg (not_not_intro (List.elem_eq_true_of_mem hs))]
  rw [assertString_some, exBind_ok, grammar_self_norm o.grammarComplexity hg]
  rw [if_neg (not_not_intro (List.elem_eq_true_of_mem hg))]
  rw [assertString_some, exBind_ok, vocabulary_self_norm o.vocabularyComplexity hv]
  rw [if_neg (not_not_intro (List.elem_eq_true_of_mem hv))]
  rw [assertArray_some, exBind_ok]
  rw [mapTopics_roundtrip o.topics hmem, exBind_ok]
  rw [if_pos (by
    intro h0
    exact hne (List.length_eq_zero.mp h0))]
  rw [show jsSetDedup o.topics = o.topics from
        jsSetDedupAux_of_nodup o.topics [] hnodup (by simp)]
  rw [List.take_of_length_le hlen]
  rfl

/-- The variants validator maps its own output back to itself. -/
theorem validateTranscriptionVariantsStructure_roundtrip
    (v : Option RawTranscriptionVariants) (label label2 : String)
    (y : TranscriptionVariants)
    (h : validateTranscriptionVariantsStructure v label = .ok y) :
    validateTranscriptionVariantsStructure (some y.toRaw) label2 = .ok y := by
  cases v with
  | none => cases h
  | some v0 =>
  simp only [validateTranscriptionVariantsStructure] at h
  cases h1 : validateTranscriptionStructure v0.plain (label ++ ".plain") with
  | error e => rw [h1, exBind_error] at h; cases h
  | ok plain =>
  rw [h1, exBind_ok] at h
  cases h2 : validateTranscriptionStructure v0.phrases (label ++ ".phrases") with
  | error e => rw [h2, exBind_error] at h; cases h
  | ok phrases =>
  rw [h2, exBind_ok] at h
  cases h3 : validateTranscriptionStructure v0.words (label ++ ".words") with
  | error e => rw [h3, exBind_error] at h; cases h
  | ok words =>
  rw [h3, exBind_ok] at h
  by_cases hne : phrases.fullText ≠ plain.fullText ∨ words.fullText ≠ plain.fullText
  · rw [if_pos hne] at h; cases h
  rw [if_neg hne] at h
  push_neg at hne
  cases h
  simp only [validateTranscriptionVariantsStructure, TranscriptionVariants.toRaw]
  rw [validateTranscriptionStructure_roundtrip _ _ (label2 ++ ".plain") _ h1,
      exBind_ok,
      validateTranscriptionStructure_roundtrip _ _ (label2 ++ ".phrases") _ h2,
      exBind_ok,
      validateTranscriptionStructure_roundtrip _ _ (label2 ++ ".words") _ h3,
      exBind_ok]
  rw [if_neg (by
    push_neg
    exact hne)]
  rfl

/-! ## `validateProcessedVideo` -/

/-- A raw composite video record.  `durationSeconds = none` covers both
`null` and `undefined` (the source treats them identically); a present
non-number is rejected by `assertNumber` and is outside the typed
universe. -/
structure RawProcessedVideo where
  videoName : Option String
  videoUrl : Option String
  durationSeconds : Option Rat
  transcription : Option RawTranscriptionVariants
  translation : Option RawTranscription
  analysis : Option RawAnalysis
  exercises : Option (List RawExercise)
  isAdultContent : Option Bool
deriving Repr, DecidableEq

/-- The output of `validateProcessedVideo`. -/
structure ProcessedVideo where
  videoName : String
  videoUrl : String
  durationSeconds : Option Rat
  transcription : TranscriptionVariants
  translation : Transcription
  analysis : Analysis
  exercises : List RawExercise
  isAdultContent : Bool
deriving Repr, DecidableEq

/-- The `durationSeconds` normalization of `validateProcessedVideo`
(`null`/`undefined` stay `null`; a present value passes `assertNumber`). -/
def validateDurationSeconds : Option Rat → Except ValidationError (Option Rat)
  | none => .ok none
  | some q => do
      pure (some (← assertNumber (some q) "videoData.durationSeconds"))

/-- The `isAdultContent` defaulting of `validateProcessedVideo`
(`undefined` inherits the analysis flag; a present value passes
`assertBoolean`). -/
def validateIsAdultContent (value : Option Bool) (analysis : Analysis) :
    Except ValidationError Bool :=
  match value with
  | none => .ok analysis.isAdultContent
  | some b => assertBoolean (some b) "videoData.isAdultContent"

/-- `validateProcessedVideo(videoData)`. -/
def validateProcessedVideo :
    Option RawProcessedVideo → Except ValidationError ProcessedVideo
  | none => .error ⟨"videoData must be an object"⟩
  | some videoData => do
      let videoName ← assertString videoData.videoName "videoData.videoName"
      let videoUrl ← assertString videoData.videoUrl "videoData.videoUrl"
      let durationSeconds ← validateDurationSeconds videoData.durationSeconds
      let transcription ← validateTranscriptionVariantsStructure
        videoData.transcription "videoData.transcription"
      let translation ← validateTranslationStructure videoData.translation
      let analysis ← validateAnalysisStructure videoData.analysis
      let exercises ← validateExercisesStructure videoData.exercises
      let isAdultContent ← validateIsAdultContent videoData.isAdultContent analysis
      pure { videoName, videoUrl, durationSeconds, transcription, translation,
             analysis, exercises, isAdultContent }

/-- A validated composite record viewed again as raw input. -/
def ProcessedVideo.toRaw (p : ProcessedVideo) : RawProcessedVideo :=
  { videoName := some p.videoName, videoUrl := some p.videoUrl,
    durationSeconds := p.durationSeconds,
    transcription := some p.transcription.toRaw,
    translation := some p.translation.toRaw,
    analysis := some p.analysis.toRaw,
    exercises := some p.exercises,
    isAdultContent := some p.isAdultContent }

theorem validateDurationSeconds_idem (v : Option Rat) (d : Option Rat)
    (h : validateDurationSeconds v = .ok d) : validateDurationSeconds d = .ok d := by
  cases v with
  | none => cases h; rfl
  | some q => cases h; rfl

/-- The composite validator maps its own output back to itself. -/
theorem validateProcessedVideo_roundtrip (v : Option RawProcessedVideo)
    (p : ProcessedVideo) (h : validateProcessedVideo v = .ok p) :
    validateProcessedVideo (some p.toRaw) = .ok p := by
  cases v with
  | none => cases h
  | some v0 =>
  simp only [validateProcessedVideo] at h
  cases h1 : assertString v0.videoName "videoData.videoName" with
  | error e => rw [h1, exBind_error] at h; cases h
  | ok videoName =>
  rw [h1, exBind_ok] at h
  cases h2 : assertString v0.videoUrl "videoData.videoUrl" with
  | error e => rw [h2, exBind_error] at h; cases h
  | ok videoUrl =>
  rw [h2, exBind_ok] at h
  cases h3 : validateDurationSeconds v0.durationSeconds with
  | error e => rw [h3, exBind_error] at h; cases h
  | ok durationSeconds =>
  rw [h3, exBind_ok] at h
  cases h4 : validateTranscriptionVariantsStructure v0.transcription
      "videoData.transcription" with
  | error e => rw [h4, exBind_error] at h; cases h
  | ok transcription =>
  rw [h4, exBind_ok] at h
  cases h5 : validateTranslationStructure v0.translation with
  | error e => rw [h5, exBind_error] at h; cases h
  | ok translation =>
  rw [h5, exBind_ok] at h
  cases h6 : validateAnalysisStructure v0.analysis with
  | error e => rw [h6, exBind_error] at h; cases h
  | ok analysis =>
  rw [h6, exBind_ok] at h
  cases h7 : validateExercisesStructure v0.exercises with
  | error e => rw [h7, exBind_error] at h; cases h
  | ok exercises =>
  rw [h7, exBind_ok] at h
  cases h8 : validateIsAdultContent v0.isAdultContent analysis with
  | error e => rw [h8, exBind_error] at h; cases h
  | ok isAdultContent =>
  rw [h8, exBind_ok] at h
  cases h
  simp only [validateProcessedVideo, ProcessedVideo.toRaw]
  have hn : jsTrim videoName = videoName := by
    obtain ⟨r, -, hr⟩ := assertString_ok h1
    rw [hr]; exact jsTrim_idem r
  have hu : jsTrim videoUrl = videoUrl := by
    obtain ⟨r, -, hr⟩ := assertString_ok h2
    rw [hr]; exact jsTrim_idem r
  rw [assertString_some, exBind_ok, hn, assertString_some, exBind_ok, hu]
  rw [validateDurationSeconds_idem _ _ h3, exBind_ok]
  rw [validateTranscriptionVariantsStructure_roundtrip _ _ "videoData.transcription" _ h4,
      exBind_ok]
  rw [show validateTranslationStructure (some translation.toRaw) =
        validateTranscriptionStructure (some translation.toRaw) "translation" from rfl,
      validateTranscriptionStructure_roundtrip _ _ "translation" _ h5, exBind_ok]
  rw [validateAnalysisStructure_roundtrip _ _ h6, exBind_ok]
  rw [validateExercisesStructure_roundtrip _ _ h7, exBind_ok]
  rw [show validateIsAdultContent (some isAdultContent) analysis =
        .ok isAdultContent from rfl, exBind_ok]
  rfl

/-- **C8.** Validator idempotence: for every input on which a validator
succeeds, feeding the validator its own output succeeds and returns the
same value — for the transcription, translation, analysis, exercises and
`ProcessedVideo` validators. -/
theorem validator_idempotence :
    (∀ (t : Option RawTranscription) (label : String) (y : Transcription),
       validateTranscriptionStructure t label = .ok y →
       validateTranscriptionStructure (some y.toRaw) label = .ok y) ∧
    (∀ (t : Option RawTranscription) (y : Transcription),
       validateTranslationStructure t = .ok y →
       validateTranslationStructure (some y.toRaw) = .ok y) ∧
    (∀ (a : Option RawAnalysis) (o : Analysis),
       validateAnalysisStructure a = .ok o →
       validateAnalysisStructure (some o.toRaw) = .ok o) ∧
    (∀ (e : Option (List RawExercise)) (out : List RawExercise),
       validateExercisesStructure e = .ok out →
       validateExercisesStructure (some out) = .ok out) ∧
    (∀ (v : Option RawProcessedVideo) (p : ProcessedVideo),
       validateProcessedVideo v = .ok p →
       validateProcessedVideo (some p.toRaw) = .ok p) := by
  refine ⟨?_, ?_, ?_, ?_, ?_⟩
  · intro t label y h
    exact validateTranscriptionStructure_roundtrip t label label y h
  · intro t y h
    exact validateTranscriptionStructure_roundtrip t "translation" "translation" y h
  · exact validateAnalysisStructure_roundtrip
  · exact validateExercisesStructure_roundtrip
  · exact validateProcessedVideo_roundtrip

/-- Raw analysis input for the C8 witness. -/
def sampleAnalysisRawC8 : RawAnalysis :=
  { cefrLevel := some "c1", speechSpeed := some "FAST",
    grammarComplexity := some "complex", vocabularyComplexity := some "advanced",
    topics := some [some "space"], isAdultContent := some false }

/-- Validated analysis for the C8 witness. -/
def sampleAnalysisC8 : Analysis :=
  { cefrLevel := "C1", speechSpeed := "fast", grammarComplexity := "complex",
    vocabularyComplexity := "advanced", topics := ["Space"],
    isAdultContent := false }

/-- Witness for C8: a concrete analysis object validates, and re-validating
the output returns it unchanged; a concrete transcription behaves the
same way. -/
theorem validator_idempotence_witness :
    validateAnalysisStructure (some sampleAnalysisC8.toRaw) =
      .ok sampleAnalysisC8 ∧
    validateTranscriptionStructure (some (sampleView "hey").toRaw) "transcription" =
      .ok (sampleView "hey") := by
  constructor
  · exact validator_idempotence.2.2.1 (some sampleAnalysisRawC8) sampleAnalysisC8 rfl
  · exact validator_idempotence.1 (some (sampleRawView " hey ")) "transcription"
      (sampleView "hey") rfl

/-! ## Translation coordinator (`translator.js`, embedded in the repo's
project summary)

The LLM is modelled as an oracle: `responses i` is the parsed JSON array of
the attempt that succeeds for batch `i` (the retry loop re-runs identical
code per attempt, so its observable result is some attempt's result or an
`UpstreamFailure` that propagates; responses whose array contains
non-object items make the attempt fail and never reach alignment).
`retryOracle` gives the text returned by the single-line Cyrillic retry
(`translateSingleLineWithGemini`) for a given line index. -/

/-- `config.google.translationChunkSize`:
`Number.isNaN(parsed) ? 40 : Math.max(1, parsed)` where `parsed` is the
integer parse of the env override (`none` = unset / unparsable). -/
def translationChunkSize : Option Int → Nat
  | none => 40
  | some parsed => (max 1 parsed).toNat

/-- `DEFAULT_CHUNK_SIZE = config.google.translationChunkSize || 60`
(`|| 60` fires only on a falsy, i.e. zero, value, which the config never
produces since it floors at 1). -/
def DEFAULT_CHUNK_SIZE (cfg : Nat) : Nat := if cfg = 0 then 60 else cfg

/-- Fuel-driven body of `chunkArray`'s slicing loop: each step emits
`k + 1` elements (`k = chunkSize - 1`).  The fuel is an upper bound on the
list length, so the `0, l => [l]` fallback is unreachable. -/
def chunkArrayGo {α : Type} (k : Nat) : Nat → List α → List (List α)
  | _, [] => []
  | 0, l => [l]
  | fuel + 1, x :: xs => (x :: xs.take k) :: chunkArrayGo k fuel (xs.drop k)

/-- `chunkArray(items, chunkSize)`. -/
def chunkArray {α : Type} (items : List α) (chunkSize : Nat) : List (List α) :=
  if items.length ≤ chunkSize then [items]
  else chunkArrayGo (chunkSize - 1) items.length items

/-- One element of the parsed LLM response array (`{index, text}`; a
missing / non-string `text` and a missing / non-finite `index` are
`none`). -/
structure RespItem where
  text : Option String
  index : Option Rat
deriving Repr, DecidableEq

/-- A normalized translation entry `{text, index}`. -/
structure TransEntry where
  text : String
  index : Rat
deriving Repr, DecidableEq

/-- An element pushed onto `translations` by `translateTranscription`. -/
structure TranslationChunk where
  text : String
  timestamp : Rat × Rat
  sourceText : String
deriving Repr, DecidableEq

/-- JS `Array.prototype.map((x, index) => ...)` (infallible). -/
def jsMapIdx {α β : Type} (f : Nat → α → β) : Nat → List α → List β
  | _, [] => []
  | i, x :: xs => f i x :: jsMapIdx f (i + 1) xs

/-- `normalizeWhitespace` body: `replace(/\s+/g, " ")`. -/
def collapseWsAux : Bool → List Char → List Char
  | _, [] => []
  | inRun, c :: cs =>
      if isJsWs c then
        if inRun then collapseWsAux true cs
        else ' ' :: collapseWsAux true cs
      else c :: collapseWsAux false cs

/-- `normalizeWhitespace(text)`. -/
def normalizeWhitespace (s : String) : String :=
  if s = "" then ""
  else jsTrim ⟨collapseWsAux false s.data⟩

/-- Characters of the `STRIP_WRAPPING_QUOTES` class `["“”]`. -/
def isWrapQuote (c : Char) : Bool := c = '"' || c = '“' || c = '”'

/-- JS line terminators (which `.` does not match). -/
def isJsLineTerminator (c : Char) : Bool :=
  c = '\n' || c = '\r' || c.val = 0x2028 || c.val = 0x2029

/-- `text.replace(STRIP_WRAPPING_QUOTES, "$1")` with
`STRIP_WRAPPING_QUOTES = /^["“”](.*)["“”]$/`. -/
def stripWrappingQuotes (s : String) : String :=
  match s.data with
  | [] => s
  | c :: cs =>
      match cs.getLast? with
      | none => s
      | some d =>
          if isWrapQuote c && isWrapQuote d &&
             cs.dropLast.all (fun e => !isJsLineTerminator e) then
            ⟨cs.dropLast⟩
          else s

/-- The batch payload
`chunk.map((entry, index) => ({index: offset + index, text: entry.text}))`. -/
def buildPayload (chunk : List Chunk) (offset : Nat) : List TransEntry :=
  jsMapIdx (fun index entry =>
    { index := ((offset + index : Nat) : Rat), text := entry.text }) 0 chunk

/-- `Number.isFinite(item.index) ? item.index : payload[index].index` —
reading `payload[index].index` off the end of the payload raises a
`TypeError` (failing the whole attempt). -/
def resolveRespIndex (payload : List TransEntry) (pos : Nat) :
    Option Rat → Except ValidationError Rat
  | some q => .ok q
  | none =>
      match payload.get? pos with
      | some p => .ok p.index
      | none => .error ⟨"TypeError: cannot read index of undefined"⟩

/-- Body of the `parsed.map((item, index) => ...)` normalization: trim,
strip wrapping quotes, fall back to source text when empty, coerce the
index. -/
def normalizeRespItemAt (chunk : List Chunk) (payload : List TransEntry)
    (pos : Nat) (item : RespItem) : Except ValidationError TransEntry := do
  let rawText := (item.text.map jsTrim).getD ""
  let text := jsTrim (stripWrappingQuotes rawText)
  let indexValue ← resolveRespIndex payload pos item.index
  pure { text := if text ≠ "" then text
                 else ((chunk.get? pos).map (fun c => c.text)).getD "",
         index := indexValue }

/-- Truncate / pad the normalized list to the batch length, padding with
source text and the expected index. -/
def padTruncate (chunk : List Chunk) (payload : List TransEntry)
    (normalized : List TransEntry) : List TransEntry :=
  if normalized.length < chunk.length then
    normalized ++ ((List.range chunk.length).drop normalized.length).map
      (fun idx => { text := ((chunk.get? idx).map (fun c => c.text)).getD "",
                    index := ((payload.get? idx).map (fun p => p.index)).getD 0 })
  else if normalized.length > chunk.length then
    normalized.take chunk.length
  else normalized

/-- The defensive `normalized.forEach` fix-up pass (empty text falls back
to source; the non-finite-index branch is unreachable on the typed
universe). -/
def fixEmptyEntries (chunk : List Chunk) (l : List TransEntry) :
    List TransEntry :=
  jsMapIdx (fun index entry =>
    { text := if entry.text = "" ∨ jsTrim entry.text = "" then
                ((chunk.get? index).map (fun c => c.text)).getD ""
              else entry.text,
      index := entry.index }) 0 l

/-- The `byIndex` map build: first writer wins unless it had empty text and
the newcomer does not. -/
def buildByIndex (l : List TransEntry) : List (Rat × TransEntry) :=
  l.foldl (fun m entry =>
    match m.find? (fun p => p.1 == entry.index) with
    | none => m ++ [(entry.index, entry)]
    | some _ =>
        m.map (fun p =>
          if p.1 == entry.index then
            (if jsTrim p.2.text = "" ∧ jsTrim entry.text ≠ "" then
              (entry.index, entry)
            else p)
          else p)) []

/-- `byIndex.get(key)`. -/
def lookupByIndex (m : List (Rat × TransEntry)) (key : Rat) : Option TransEntry :=
  (m.find? (fun p => p.1 == key)).map (fun p => p.2)

/-- The expected-index alignment pass: missing indices fall back to the
source text. -/
def alignEntries (chunk : List Chunk) (byIndex : List (Rat × TransEntry))
    (expectedIndices : List Rat) : List TransEntry :=
  jsMapIdx (fun localIdx expectedIndex =>
    let fromMap := lookupByIndex byIndex expectedIndex
    let fallbackText := ((chunk.get? localIdx).map (fun c => c.text)).getD ""
    let text := match fromMap with
      | some entryF =>
          if jsTrim entryF.text ≠ "" then jsTrim entryF.text else fallbackText
      | none => fallbackText
    { text := text, index := expectedIndex }) 0 expectedIndices

/-- The per-line Cyrillic retry pass: non-Cyrillic lines are retried once
through the oracle; the best available text (source as last resort) is
kept, and whitespace is collapsed. -/
def cyrillicRetryPass (chunk : List Chunk) (retryOracle : Rat → String)
    (aligned : List TransEntry) : List TransEntry :=
  jsMapIdx (fun i current =>
    let source := ((chunk.get? i).map (fun c => c.text)).getD ""
    let text1 := if current.text = "" then source else current.text
    let text2 :=
      if hasCyrillic text1 then text1
      else
        let retry := retryOracle current.index
        if retry ≠ "" ∧ hasCyrillic retry then retry
        else if text1 ≠ "" then text1 else source
    { text := normalizeWhitespace text2, index := current.index }) 0 aligned

/-- `translateChunkWithGemini(model, chunk, {offset, ...})` — the
response-processing pipeline of the succeeding attempt. -/
def translateChunkWithGemini (chunk : List Chunk) (offset : Nat)
    (parsed : List RespItem) (retryOracle : Rat → String) :
    Except ValidationError (List TransEntry) := do
  let payload := buildPayload chunk offset
  let normalized ← mapWithIndexM (normalizeRespItemAt chunk payload) 0 parsed
  let padded := padTruncate chunk payload normalized
  let fixed := fixEmptyEntries chunk padded
  let expectedIndices := payload.map (fun p => p.index)
  let byIndex := buildByIndex fixed
  let aligned := alignEntries chunk byIndex expectedIndices
  pure (cyrillicRetryPass chunk retryOracle aligned)

/-- The per-batch loop of `translateTranscription` (`offset` is
`translations.length`; each aligned item is pushed with the source chunk's
timestamp and text). -/
def translateLoop (retryOracle : Rat → String) (responses : Nat → List RespItem) :
    Nat → List (List Chunk) → List TranslationChunk →
    Except ValidationError (List TranslationChunk)
  | _, [], translations => .ok translations
  | i, segment :: rest, translations => do
      let offset := translations.length
      let translatedTexts ← translateChunkWithGemini segment offset
        (responses i) retryOracle
      let pushed := jsMapIdx (fun index item =>
        { text := normalizeWhitespace item.text,
          timestamp := ((segment.get? index).map (fun c => c.timestamp)).getD (0, 0),
          sourceText := ((segment.get? index).map (fun c => c.text)).getD "" })
        0 translatedTexts
      translateLoop retryOracle responses (i + 1) rest (translations ++ pushed)

/-- `translateTranscription(transcription)`, parameterized by the
configured chunk size and the LLM oracles. -/
def translateTranscription (transcription : Option RawTranscription)
    (chunkSize : Nat) (responses : Nat → List RespItem)
    (retryOracle : Rat → String) : Except ValidationError Transcription := do
  let normalizedTranscription ← validateTranscriptionStructure transcription
    "transcription"
  let chunks := normalizedTranscription.chunks
  if chunks.length = 0 then
    validateTranslationStructure
      (some { fullText := some "", text := none, chunks := some [] })
  else do
    let chunked := chunkArray chunks chunkSize
    let translations ← translateLoop retryOracle responses 0 chunked []
    let fullText := normalizeWhitespace
      (String.intercalate " " (translations.map (fun c => c.text)))
    validateTranslationStructure (some
      { fullText := some fullText, text := none,
        chunks := some (translations.map (fun c =>
          { text := some c.text,
            timestamp := some [c.timestamp.1, c.timestamp.2],
            time := none })) })

theorem jsMapIdx_length {α β : Type} (f : Nat → α → β) :
    ∀ (i : Nat) (l : List α), (jsMapIdx f i l).length = l.length := by
  intro i l
  induction l generalizing i with
  | nil => rfl
  | cons x xs ih => simp [jsMapIdx, ih (i + 1)]

/-- The aligned output of one batch is exactly as long as the batch. -/
theorem translateChunkWithGemini_length (chunk : List Chunk) (offset : Nat)
    (parsed : List RespItem) (retryOracle : Rat → String)
    (out : List TransEntry)
    (h : translateChunkWithGemini chunk offset parsed retryOracle = .ok out) :
    out.length = chunk.length := by
  simp only [translateChunkWithGemini] at h
  cases hm : mapWithIndexM
      (normalizeRespItemAt chunk (buildPayload chunk offset)) 0 parsed with
  | error e => rw [hm, exBind_error] at h; cases h
  | ok normalized =>
    rw [hm, exBind_ok] at h
    cases h
    unfold cyrillicRetryPass alignEntries buildPayload
    rw [jsMapIdx_length, jsMapIdx_length, List.length_map, jsMapIdx_length]

theorem pushed_timestamps (segment : List Chunk) :
    ∀ (j : Nat) (texts : List TransEntry), texts.length + j = segment.length →
    (jsMapIdx (fun index item =>
        ({ text := normalizeWhitespace item.text,
           timestamp := ((segment.get? index).map (fun c => c.timestamp)).getD (0, 0),
           sourceText := ((segment.get? index).map (fun c => c.text)).getD "" }
          : TranslationChunk)) j texts).map (fun c => c.timestamp) =
      (segment.drop j).map (fun c => c.timestamp) := by
  intro j texts
  induction texts generalizing j with
  | nil =>
    intro h
    simp only [List.length_nil, Nat.zero_add] at h
    rw [h]
    simp [jsMapIdx, List.drop_length]
  | cons t ts ih =>
    intro h
    have hj : j < segment.length := by
      simp only [List.length_cons] at h
      omega
    rw [show jsMapIdx _ j (t :: ts) = _ :: jsMapIdx _ (j + 1) ts from rfl]
    rw [List.map_cons, List.drop_eq_getElem_cons hj, List.map_cons]
    congr 1
    · show ((segment.get? j).map (fun c => c.timestamp)).getD (0, 0) = _
      rw [List.get?_eq_getElem?, List.getElem?_eq_getElem hj]
      rfl
    · apply ih (j + 1)
      simp only [List.length_cons] at h
      omega

/-- The per-batch loop appends one translation per source chunk, carrying
the source chunk's timestamp. -/
theorem translateLoop_timestamps (retryOracle : Rat → String)
    (responses : Nat → List RespItem) :
    ∀ (batches : List (List Chunk)) (i : Nat) (acc out : List TranslationChunk),
      translateLoop retryOracle responses i batches acc = .ok out →
      out.map (fun c => c.timestamp) =
        acc.map (fun c => c.timestamp) ++
          batches.flatten.map (fun c => c.timestamp) := by
  intro batches
  induction batches with
  | nil =>
    intro i acc out h
    cases h
    simp
  | cons segment rest ih =>
    intro i acc out h
    simp only [translateLoop] at h
    cases ht : translateChunkWithGemini segment acc.length (responses i)
        retryOracle with
    | error e => rw [ht, exBind_error] at h; cases h
    | ok texts =>
      rw [ht, exBind_ok] at h
      have hlen := translateChunkWithGemini_length _ _ _ _ _ ht
      have hrec := ih (i + 1) _ out h
      rw [hrec, List.map_append]
      rw [pushed_timestamps segment 0 texts (by omega)]
      simp [List.flatten_cons]

/-- Flattening the batches recovers the input list. -/
theorem chunkArrayGo_flatten {α : Type} (k : Nat) :
    ∀ (fuel : Nat) (l : List α), l.length ≤ fuel →
      (chunkArrayGo k fuel l).flatten = l := by
  intro fuel
  induction fuel with
  | zero =>
    intro l h
    cases l with
    | nil => rfl
    | cons x xs => simp at h
  | succ n ih =>
    intro l h
    cases l with
    | nil => rfl
    | cons x xs =>
      show ((x :: xs.take k) :: chunkArrayGo k n (xs.drop k)).flatten = x :: xs
      rw [List.flatten_cons, ih (xs.drop k) (by
        rw [List.length_drop]
        simp only [List.length_cons] at h
        omega)]
      simp [List.take_append_drop]

/-- `chunkArray` partitions its input. -/
theorem chunkArray_flatten {α : Type} (l : List α) (cs : Nat) :
    (chunkArray l cs).flatten = l := by
  unfold chunkArray
  by_cases hle : l.length ≤ cs
  · rw [if_pos hle]
    simp
  · rw [if_neg hle]
    exact chunkArrayGo_flatten (cs - 1) l.length l le_rfl

theorem chunkArrayGo_batch_le {α : Type} (k : Nat) :
    ∀ (fuel : Nat) (l : List α), l.length ≤ fuel →
      ∀ b ∈ chunkArrayGo k fuel l, b.length ≤ k + 1 := by
  intro fuel
  induction fuel with
  | zero =>
    intro l h b hb
    cases l with
    | nil => cases hb
    | cons x xs => simp at h
  | succ n ih =>
    intro l h b hb
    cases l with
    | nil => cases hb
    | cons x xs =>
      rcases List.mem_cons.mp hb with hb | hb
      · rw [hb]
        simp only [List.length_cons, List.length_take]
        omega
      · exact ih (xs.drop k) (by
          rw [List.length_drop]
          simp only [List.length_cons] at h
          omega) b hb

/-- Every batch produced by `chunkArray` has at most `chunkSize` elements
(for a positive chunk size). -/
theorem chunkArray_batch_le {α : Type} (l : List α) (cs : Nat) (h : 1 ≤ cs) :
    ∀ b ∈ chunkArray l cs, b.length ≤ cs := by
  unfold chunkArray
  by_cases hle : l.length ≤ cs
  · rw [if_pos hle]
    intro b hb
    simp at hb
    rw [hb]
    exact hle
  · rw [if_neg hle]
    intro b hb
    have := chunkArrayGo_batch_le (cs - 1) l.length l le_rfl b hb
    omega

theorem buildPayload_indices_aux (offset : Nat) :
    ∀ (segment : List Chunk) (j : Nat),
    (jsMapIdx (fun index entry =>
        ({ index := ((offset + index : Nat) : Rat), text := entry.text }
          : TransEntry)) j segment).map (fun p => p.index) =
    (List.range' j segment.length).map (fun i => ((offset + i : Nat) : Rat)) := by
  intro segment
  induction segment with
  | nil => intro j; rfl
  | cons c csx ih =>
    intro j
    show (_ :: jsMapIdx _ (j + 1) csx).map _ =
      (j :: List.range' (j + 1) csx.length).map _
    rw [List.map_cons, List.map_cons, ih (j + 1)]

/-- The payload of a batch at offset `O` carries the indices
`[O, O + len)` (in order). -/
theorem buildPayload_indices (segment : List Chunk) (offset : Nat) :
    (buildPayload segment offset).map (fun p => p.index) =
    (List.range segment.length).map (fun i => ((offset + i : Nat) : Rat)) := by
  unfold buildPayload
  rw [buildPayload_indices_aux offset segment 0, List.range_eq_range']

/-- The per-chunk validator acting on the translation assembly output. -/
theorem validateChunkAt_translation (label : String) (i : Nat)
    (c : TranslationChunk) :
    validateChunkAt label i
      ({ text := some c.text,
         timestamp := some [c.timestamp.1, c.timestamp.2], time := none }) =
    .ok { text := jsTrim c.text, timestamp := c.timestamp } := rfl

theorem mapWithIndexM_map_ok {α β γ : Type}
    (f : Nat → β → Except ValidationError γ) (m : α → β) (g : α → γ)
    (hg : ∀ (i : Nat) (a : α), f i (m a) = .ok (g a)) :
    ∀ (i : Nat) (l : List α), mapWithIndexM f i (l.map m) = .ok (l.map g) := by
  intro i l
  induction l generalizing i with
  | nil => rfl
  | cons x xs ih =>
    show mapWithIndexM f i (m x :: xs.map m) = _
    unfold mapWithIndexM
    rw [hg i x, exBind_ok, ih (i + 1), exBind_ok]
    rfl

/-- **C2.** For every phrase view accepted by the transcription validator
and every sequence of (parsed) LLM responses and retry texts, whenever
`translateTranscription` returns a translation `T`, it has exactly as many
chunks as the validated phrase view `P`, and every chunk's timestamp is
copied from the corresponding phrase chunk. -/
theorem translateTranscription_alignment :
    ∀ (transcription : Option RawTranscription) (chunkSize : Nat)
      (responses : Nat → List RespItem) (retryOracle : Rat → String)
      (P T : Transcription),
      1 ≤ chunkSize →
      validateTranscriptionStructure transcription "transcription" = .ok P →
      translateTranscription transcription chunkSize responses retryOracle = .ok T →
      T.chunks.length = P.chunks.length ∧
      (∀ i, (T.chunks.get? i).map (fun c => c.timestamp) =
            (P.chunks.get? i).map (fun c => c.timestamp)) := by
  intro transcription chunkSize responses retryOracle P T hcs hP hT
  simp only [translateTranscription] at hT
  rw [hP, exBind_ok] at hT
  by_cases hz : P.chunks.length = 0
  · rw [if_pos hz] at hT
    have hemp : validateTranslationStructure
        (some { fullText := some "", text := none, chunks := some [] }) =
        .ok { fullText := "", text := "", chunks := [] } := rfl
    rw [hemp] at hT
    cases hT
    have hPnil : P.chunks = [] := List.length_eq_zero.mp hz
    rw [hPnil]
    exact ⟨rfl, fun i => rfl⟩
  · rw [if_neg hz] at hT
    cases hl : translateLoop retryOracle responses 0
        (chunkArray P.chunks chunkSize) [] with
    | error e => rw [hl, exBind_error] at hT; cases hT
    | ok translations =>
      rw [hl, exBind_ok] at hT
      have hts : translations.map (fun c => c.timestamp) =
          P.chunks.map (fun c => c.timestamp) := by
        have := translateLoop_timestamps retryOracle responses
          (chunkArray P.chunks chunkSize) 0 [] translations hl
        rw [this, chunkArray_flatten P.chunks chunkSize]
        simp
      simp only [validateTranslationStructure,
        validateTranscriptionStructure] at hT
      rw [assertString_some, exBind_ok] at hT
      rw [show ((some (translations.map (fun c =>
            ({ text := some c.text,
               timestamp := some [c.timestamp.1, c.timestamp.2], time := none }
              : RawChunk))) : Option (List RawChunk)).getD []) =
          translations.map (fun c =>
            ({ text := some c.text,
               timestamp := some [c.timestamp.1, c.timestamp.2], time := none }
              : RawChunk)) from rfl] at hT
      rw [mapWithIndexM_map_ok (validateChunkAt "translation")
            (fun c : TranslationChunk =>
              ({ text := some c.text,
                 timestamp := some [c.timestamp.1, c.timestamp.2], time := none }
                : RawChunk))
            (fun c => ({ text := jsTrim c.text, timestamp := c.timestamp } : Chunk))
            (fun i c => validateChunkAt_translation "translation" i c) 0
            translations, exBind_ok] at hT
      cases hT
      have hTts : (translations.map (fun c =>
          ({ text := jsTrim c.text, timestamp := c.timestamp } : Chunk))).map
            (fun c => c.timestamp) = P.chunks.map (fun c => c.timestamp) := by
        rw [List.map_map]
        exact hts
      constructor
      · have := congrArg List.length hTts
        simpa using this
      · intro i
        rw [← List.get?_map, ← List.get?_map, hTts]

/-- A two-chunk raw phrase view for the C2 witness. -/
def sampleTranslationInput : RawTranscription :=
  { fullText := some "Привет Пока", text := none,
    chunks := some [{ text := some "Привет", timestamp := some [0, 1], time := none },
                    { text := some "Пока", timestamp := some [1, 2], time := none }] }

/-- The validated phrase view of `sampleTranslationInput`. -/
def sampleTranslationP : Transcription :=
  { fullText := "Привет Пока", text := "Привет Пока",
    chunks := [{ text := "Привет", timestamp := (0, 1) },
               { text := "Пока", timestamp := (1, 2) }] }

/-- The translation produced when the LLM returns an empty array for the
batch (all lines fall back to the Cyrillic source text). -/
def sampleTranslationT : Transcription :=
  { fullText := "Привет Пока", text := "Привет Пока",
    chunks := [{ text := "Привет", timestamp := (0, 1) },
               { text := "Пока", timestamp := (1, 2) }] }

/-- Witness for C2: a concrete run with an empty (too-short) LLM response
still yields one chunk per phrase chunk with identical timestamps. -/
theorem translateTranscription_alignment_witness :
    sampleTranslationT.chunks.length = sampleTranslationP.chunks.length ∧
    (sampleTranslationT.chunks.get? 0).map (fun c => c.timestamp) =
      (sampleTranslationP.chunks.get? 0).map (fun c => c.timestamp) ∧
    (sampleTranslationT.chunks.get? 1).map (fun c => c.timestamp) =
      (sampleTranslationP.chunks.get? 1).map (fun c => c.timestamp) := by
  have h := translateTranscription_alignment (some sampleTranslationInput) 40
    (fun _ => []) (fun _ => "") sampleTranslationP sampleTranslationT
    (by decide) rfl rfl
  exact ⟨h.1, h.2 0, h.2 1⟩

/-- **C9 (counterexample).** With no configuration override, the default
translation chunk size is 40, not 60: a 41-chunk input is split into two
batches where a batch size of 60 would produce one. -/
theorem translation_batch_size_cex :
    translationChunkSize none = 40 ∧
    DEFAULT_CHUNK_SIZE (translationChunkSize none) ≠ 60 ∧
    (chunkArray (List.range 41) (DEFAULT_CHUNK_SIZE (translationChunkSize none))).length = 2 ∧
    (chunkArray (List.range 41) 60).length = 1 := by
  exact ⟨rfl, by decide, rfl, rfl⟩

/-- **C9 (amended).** When no batch-size override is supplied,
`translationChunkSize` defaults to 40 (not 60): the coordinator partitions
the input phrase chunks into batches of at most 40 whose concatenation is
the input, and the batch payload at offset `O` carries the indices
`[O, O + len)`. -/
theorem translation_batching_default :
    DEFAULT_CHUNK_SIZE (translationChunkSize none) = 40 ∧
    (∀ (l : List Chunk) (cs : Nat), 1 ≤ cs →
      (chunkArray l cs).flatten = l ∧ ∀ b ∈ chunkArray l cs, b.length ≤ cs) ∧
    (∀ (segment : List Chunk) (offset : Nat),
      (buildPayload segment offset).map (fun p => p.index) =
      (List.range segment.length).map (fun i => ((offset + i : Nat) : Rat))) := by
  refine ⟨rfl, ?_, buildPayload_indices⟩
  intro l cs hcs
  exact ⟨chunkArray_flatten l cs, chunkArray_batch_le l cs hcs⟩

/-- Witness for the amended C9 at a concrete batch list. -/
theorem translation_batching_default_witness :
    (chunkArray sampleTranslationP.chunks 40).flatten = sampleTranslationP.chunks ∧
    (buildPayload sampleTranslationP.chunks 7).map (fun p => p.index) =
      (List.range sampleTranslationP.chunks.length).map
        (fun i => ((7 + i : Nat) : Rat)) := by
  have h := translation_batching_default
  exact ⟨(h.2.1 sampleTranslationP.chunks 40 (by decide)).1,
    h.2.2 sampleTranslationP.chunks 7⟩

/-! ## Transcript segmenter (`whisper.js`: `normalizeWordEntries`,
`composeChunkText`, `groupWordEntries`) -/

/-- A normalized word entry (`{originalText, text, start, end}`). -/
structure WordEntry where
  originalText : String
  text : String
  start : Rat
  end_ : Rat
deriving Repr, DecidableEq

/-- A raw word entry (fields absent or of the wrong type are `none`;
`none` at the list level is a non-object element). -/
structure RawWordEntry where
  originalText : Option String
  text : Option String
  start : Option Rat
  startTime : Option Rat
  end_ : Option Rat
  endTime : Option Rat
deriving Repr, DecidableEq

/-- One step of the `normalizeWordEntries` map (blank text maps to `null`
and is filtered out; `end` is clamped to `start`). -/
def normalizeWordEntry : Option RawWordEntry → Option WordEntry
  | none => none
  | some entry =>
      let rawText := match entry.originalText with
        | some s => some s
        | none => entry.text
      let text := jsTrim (rawText.getD "")
      if text = "" then none
      else
        let start := ((entry.start).orElse (fun _ => entry.startTime)).getD 0
        let end_ := ((entry.end_).orElse (fun _ => entry.endTime)).getD start
        let safeEnd := if end_ ≥ start then end_ else start
        some { originalText := rawText.getD "", text := text,
               start := start, end_ := safeEnd }

/-- Stable insertion used to model `Array.prototype.sort` (stable since
ES2019): the new element goes after all existing elements that compare
`≤`. -/
def jsSortInsert {α : Type} (le : α → α → Bool) (x : α) : List α → List α
  | [] => [x]
  | y :: ys => if le y x then y :: jsSortInsert le x ys else x :: y :: ys

/-- `.sort((a, b) => a.start - b.start)` — stable sort by `start`. -/
def jsSortByStart (l : List WordEntry) : List WordEntry :=
  l.foldl (fun acc x => jsSortInsert (fun a b => a.start ≤ b.start) x acc) []

/-- `normalizeWordEntries(entries)`. -/
def normalizeWordEntries (entries : Option (List (Option RawWordEntry))) :
    List WordEntry :=
  match entries with
  | none => []
  | some l => jsSortByStart (l.filterMap normalizeWordEntry)

/-- The closing-punctuation class `[.,!?;:)\]»”]` of `composeChunkText`. -/
def isClosingPunct (c : Char) : Bool :=
  c = '.' || c = ',' || c = '!' || c = '?' || c = ';' || c = ':' ||
  c = ')' || c = ']' || c = '»' || c = '”'

/-- The apostrophe class `['’]`. -/
def isOpeningApos (c : Char) : Bool := c = '\'' || c = '’'

/-- The trailing-dash class `[\-–—]`. -/
def isDash (c : Char) : Bool := c = '-' || c = '–' || c = '—'

/-- `word.originalText` when non-empty, else `word.text` (both are strings
on the normalized entries). -/
def composeSource (w : WordEntry) : String :=
  if w.originalText.length > 0 then w.originalText else w.text

/-- The spacing rule of `composeChunkText`'s reduce step. -/
def composeJoin (acc : String) (trimmed : String) : String :=
  if acc = "" then trimmed
  else if ((trimmed.data.head?.map
      (fun c => isClosingPunct c || isOpeningApos c)).getD false) then
    acc ++ trimmed
  else if ((acc.data.getLast?.map
      (fun c => c = '(' || isDash c)).getD false) then
    acc ++ trimmed
  else acc ++ " " ++ trimmed

/-- The `words.reduce(...)` of `composeChunkText`. -/
def composeRaw (words : List WordEntry) : String :=
  words.foldl (fun acc word =>
    let trimmed := jsTrim (composeSource word)
    if trimmed = "" then acc else composeJoin acc trimmed) ""

/-- `raw.replace(/\s+([.,!?;:)\]»”])/g, "$1")`: drop every whitespace
character whose run is immediately followed by a closing punctuation
character. -/
def stripWsBeforeClosing : List Char → List Char
  | [] => []
  | c :: cs =>
      if isJsWs c ∧ ((cs.dropWhile isJsWs).head?.map isClosingPunct).getD false then
        stripWsBeforeClosing cs
      else c :: stripWsBeforeClosing cs

/-- `.replace(/\(\s+/g, "(")`: drop the whitespace run immediately
following an opening parenthesis. -/
def stripWsAfterParenAux : Bool → List Char → List Char
  | _, [] => []
  | inRun, c :: cs =>
      if c = '(' then c :: stripWsAfterParenAux true cs
      else if inRun ∧ isJsWs c then stripWsAfterParenAux true cs
      else c :: stripWsAfterParenAux false cs

/-- `composeChunkText(words)`. -/
def composeChunkText (words : List WordEntry) : String :=
  jsTrim ⟨stripWsAfterParenAux false (stripWsBeforeClosing (composeRaw words).data)⟩

/-- The effective grouping parameters after the `Math.max` clamps. -/
structure GroupParams where
  minWords : Nat
  maxWords : Nat
  maxGapSeconds : Rat
  minDuration : Rat
  maxDuration : Option Rat
deriving Repr, DecidableEq

/-- `Math.max(1, minWords)` / `Math.max(minWords, maxWords)` clamping. -/
def effectiveParams (minWords maxWords : Nat) (maxGapSeconds minDuration : Rat)
    (maxDuration : Option Rat) : GroupParams :=
  let mw := max 1 minWords
  { minWords := mw, maxWords := max mw maxWords,
    maxGapSeconds := maxGapSeconds, minDuration := minDuration,
    maxDuration := maxDuration }

/-- `/[.!?…]+$/.test(text)`. -/
def endsSentencePunct (s : String) : Bool :=
  (s.data.getLast?.map (fun c => c = '.' || c = '!' || c = '?' || c = '…')).getD false

/-- `flush()` at the level of buffers: a non-empty buffer is emitted,
then cleared. -/
def flushBuffers (buffer : List WordEntry) : List (List WordEntry) :=
  if buffer.isEmpty then [] else [buffer]

/-- The `normalized.forEach` accumulation loop of `groupWordEntries`,
instrumented to return the flushed buffers (the per-chunk word lists); the
final `flush()` is the base case. -/
def groupLoop (p : GroupParams) :
    List WordEntry → List WordEntry → List (List WordEntry)
  | buffer, [] => flushBuffers buffer
  | buffer, entry :: rest =>
      let bufferN := buffer ++ [entry]
      let next := rest.head?
      let bufferStart := ((bufferN.head?).map (fun w => w.start)).getD 0
      let bufferEnd := bufferN.foldl (fun acc item => max acc item.end_) bufferStart
      let duration := max 0 (bufferEnd - bufferStart)
      let gap : Option Rat := match next with
        | none => none
        | some n => some (max 0 (n.start - bufferEnd))
      let reachedMaxWords : Bool := bufferN.length ≥ p.maxWords
      let endsSentence := endsSentencePunct entry.text
      let enoughWords : Bool := bufferN.length ≥ p.minWords
      let reachedMinDuration : Bool := (p.minDuration == 0) || (duration ≥ p.minDuration)
      let reachedMaxDuration : Bool := match p.maxDuration with
        | none => false
        | some d => (d != 0) && (duration ≥ d)
      let nextWouldExceedDuration : Bool := match next, p.maxDuration with
        | some n, some d => (d != 0) && (max bufferEnd n.end_ - bufferStart > d)
        | _, _ => false
      let breakOnGap : Bool := match gap with
        | some g => g > p.maxGapSeconds
        | none => false
      if breakOnGap then flushBuffers bufferN ++ groupLoop p [] rest
      else if reachedMaxWords || reachedMaxDuration ||
          (nextWouldExceedDuration && reachedMinDuration) ||
          (reachedMinDuration && enoughWords && endsSentence) ||
          rest.isEmpty then
        flushBuffers bufferN ++ groupLoop p [] rest
      else groupLoop p bufferN rest

/-- The chunk built by `flush()` from a buffer (dropped when the composed
text is empty). -/
def mkGroupChunk (buffer : List WordEntry) : Option Chunk :=
  match buffer.head? with
  | none => none
  | some first =>
      let start := first.start
      let end_ := buffer.foldl (fun acc item => max acc item.end_) start
      let text := composeChunkText buffer
      if text = "" then none
      else some { text := text, timestamp := (start, end_) }

/-- The flushed buffers of a full `groupWordEntries` run. -/
def groupWordBuffers (entries : Option (List (Option RawWordEntry)))
    (minWords maxWords : Nat) (maxGapSeconds minDuration : Rat)
    (maxDuration : Option Rat) : List (List WordEntry) :=
  groupLoop (effectiveParams minWords maxWords maxGapSeconds minDuration maxDuration)
    [] (normalizeWordEntries entries)

/-- `groupWordEntries(entries, overrides)`. -/
def groupWordEntries (entries : Option (List (Option RawWordEntry)))
    (minWords maxWords : Nat) (maxGapSeconds minDuration : Rat)
    (maxDuration : Option Rat) : List Chunk :=
  let normalized := normalizeWordEntries entries
  if normalized.isEmpty then []
  else
    let groups := (groupWordBuffers entries minWords maxWords maxGapSeconds
      minDuration maxDuration).filterMap mkGroupChunk
    if groups.isEmpty then
      normalized.map (fun entry =>
        { text := entry.text, timestamp := (entry.start, entry.end_) })
    else groups

theorem flushBuffers_flatten (b : List WordEntry) : (flushBuffers b).flatten = b := by
  unfold flushBuffers
  by_cases hb : b.isEmpty
  · rw [if_pos hb]
    simp [List.isEmpty_iff.mp hb]
  · rw [if_neg hb]
    simp

/-- The flushed buffers concatenate back to `buffer ++ rest`: every word is
consumed by exactly one buffer. -/
theorem groupLoop_flatten (p : GroupParams) :
    ∀ (rest buffer : List WordEntry),
      (groupLoop p buffer rest).flatten = buffer ++ rest := by
  intro rest
  induction rest with
  | nil =>
    intro buffer
    show (flushBuffers buffer).flatten = buffer ++ []
    rw [flushBuffers_flatten]
    simp
  | cons entry rest ih =>
    intro buffer
    simp only [groupLoop]
    split
    · rw [List.flatten_append, flushBuffers_flatten, ih []]
      simp
    · split
      · rw [List.flatten_append, flushBuffers_flatten, ih []]
        simp
      · rw [ih (buffer ++ [entry])]
        simp

theorem flushBuffers_mem_ne_nil (buffer : List WordEntry) :
    ∀ b ∈ flushBuffers buffer, b ≠ [] := by
  unfold flushBuffers
  by_cases hb : buffer.isEmpty
  · rw [if_pos hb]
    intro b hb2
    cases hb2
  · rw [if_neg hb]
    intro b hb2
    simp at hb2
    rw [hb2]
    intro hnil
    exact hb (by simp [hnil])

/-- Every flushed buffer is non-empty. -/
theorem groupLoop_mem_ne_nil (p : GroupParams) :
    ∀ (rest buffer : List WordEntry), ∀ b ∈ groupLoop p buffer rest, b ≠ [] := by
  intro rest
  induction rest with
  | nil =>
    intro buffer b hb
    exact flushBuffers_mem_ne_nil buffer b hb
  | cons entry rest ih =>
    intro buffer b hb
    simp only [groupLoop] at hb
    split at hb
    · rcases List.mem_append.mp hb with hb | hb
      · exact flushBuffers_mem_ne_nil _ b hb
      · exact ih [] b hb
    · split at hb
      · rcases List.mem_append.mp hb with hb | hb
        · exact flushBuffers_mem_ne_nil _ b hb
        · exact ih [] b hb
      · exact ih (buffer ++ [entry]) b hb

/-- At least one non-whitespace character. -/
def hasNonWsChar (l : List Char) : Bool := l.any (fun c => !(isJsWs c))

theorem mem_trimChars {c : Char} {l : List Char} (h : c ∈ trimChars l) : c ∈ l := by
  unfold trimChars at h
  rw [List.mem_reverse] at h
  have h2 := (List.dropWhile_sublist isJsWs (l := (l.dropWhile isJsWs).reverse)).subset h
  rw [List.mem_reverse] at h2
  exact (List.dropWhile_sublist isJsWs (l := l)).subset h2

theorem jsTrimmed_hasNonWs {s : String} (h : jsTrim s ≠ "") :
    hasNonWsChar (jsTrim s).data = true := by
  cases htc : trimChars s.data with
  | nil =>
    exact absurd (show jsTrim s = "" from congrArg String.mk htc) h
  | cons c cs =>
    have hcw := (trimChars_clean s.data).1 c (by rw [htc]; rfl)
    show hasNonWsChar (trimChars s.data) = true
    rw [htc]
    simp [hasNonWsChar, hcw]

theorem hasNonWs_of_jsTrim_ne {s : String} (h : jsTrim s ≠ "") :
    hasNonWsChar s.data = true := by
  cases htc : trimChars s.data with
  | nil =>
    exact absurd (show jsTrim s = "" from congrArg String.mk htc) h
  | cons c cs =>
    have hcw := (trimChars_clean s.data).1 c (by rw [htc]; rfl)
    have hcm : c ∈ s.data := mem_trimChars (l := s.data) (by rw [htc]; simp)
    simp [hasNonWsChar, List.any_eq_true]
    exact ⟨c, hcm, by simp [hcw]⟩

theorem composeJoin_hasNonWs (acc trimmed : String)
    (h : hasNonWsChar trimmed.data = true) :
    hasNonWsChar (composeJoin acc trimmed).data = true := by
  unfold composeJoin
  split
  · exact h
  · split
    · show hasNonWsChar (acc ++ trimmed).data = true
      rw [show (acc ++ trimmed).data = acc.data ++ trimmed.data from rfl]
      simp only [hasNonWsChar, List.any_append] at h ⊢
      simp [h]
    · split
      · show hasNonWsChar (acc ++ trimmed).data = true
        rw [show (acc ++ trimmed).data = acc.data ++ trimmed.data from rfl]
        simp only [hasNonWsChar, List.any_append] at h ⊢
        simp [h]
      · show hasNonWsChar (acc ++ " " ++ trimmed).data = true
        rw [show (acc ++ " " ++ trimmed).data =
              acc.data ++ " ".data ++ trimmed.data from rfl]
        simp only [hasNonWsChar, List.any_append] at h ⊢
        simp [h]

theorem composeRaw_hasNonWs :
    ∀ (l : List WordEntry) (acc : String),
      (hasNonWsChar acc.data = true ∨ ∃ w ∈ l, jsTrim (composeSource w) ≠ "") →
      hasNonWsChar (l.foldl (fun acc word =>
        let trimmed := jsTrim (composeSource word)
        if trimmed = "" then acc else composeJoin acc trimmed) acc).data = true := by
  intro l
  induction l with
  | nil =>
    intro acc h
    rcases h with h | ⟨w, hw, _⟩
    · exact h
    · cases hw
  | cons w ws ih =>
    intro acc h
    show hasNonWsChar ((ws.foldl _ (if jsTrim (composeSource w) = "" then acc
      else composeJoin acc (jsTrim (composeSource w))))).data = true
    by_cases ht : jsTrim (composeSource w) = ""
    · rw [if_pos ht]
      apply ih
      rcases h with h | ⟨v, hv, hvne⟩
      · exact Or.inl h
      · rcases List.mem_cons.mp hv with hv | hv
        · rw [hv] at hvne
          exact absurd ht hvne
        · exact Or.inr ⟨v, hv, hvne⟩
    · rw [if_neg ht]
      apply ih
      exact Or.inl (composeJoin_hasNonWs acc _ (jsTrimmed_hasNonWs ht))

theorem stripWsBeforeClosing_hasNonWs :
    ∀ l, hasNonWsChar l = true → hasNonWsChar (stripWsBeforeClosing l) = true := by
  intro l
  induction l with
  | nil => intro h; exact h
  | cons c cs ih =>
    intro h
    unfold stripWsBeforeClosing
    simp only [hasNonWsChar, List.any_cons, Bool.or_eq_true] at h
    by_cases hc : isJsWs c ∧ ((cs.dropWhile isJsWs).head?.map isClosingPunct).getD false
    · rw [if_pos hc]
      apply ih
      rcases h with h | h
      · simp [hc.1] at h
      · exact h
    · rw [if_neg hc]
      simp only [hasNonWsChar, List.any_cons, Bool.or_eq_true]
      rcases h with h | h
      · exact Or.inl h
      · exact Or.inr (ih h)

theorem stripWsAfterParenAux_hasNonWs :
    ∀ (l : List Char) (flag : Bool), hasNonWsChar l = true →
      hasNonWsChar (stripWsAfterParenAux flag l) = true := by
  intro l
  induction l with
  | nil => intro flag h; exact h
  | cons c cs ih =>
    intro flag h
    unfold stripWsAfterParenAux
    simp only [hasNonWsChar, List.any_cons, Bool.or_eq_true] at h
    by_cases hp : c = '('
    · rw [if_pos hp]
      simp only [hasNonWsChar, List.any_cons, Bool.or_eq_true]
      rcases h with h | h
      · exact Or.inl h
      · exact Or.inr (ih true h)
    · rw [if_neg hp]
      by_cases hw : flag ∧ isJsWs c
      · rw [if_pos hw]
        apply ih
        rcases h with h | h
        · simp [hw.2] at h
        · exact h
      · rw [if_neg hw]
        simp only [hasNonWsChar, List.any_cons, Bool.or_eq_true]
        rcases h with h | h
        · exact Or.inl h
        · exact Or.inr (ih false h)

theorem hasNonWs_dropWhile :
    ∀ l, hasNonWsChar l = true → hasNonWsChar (l.dropWhile isJsWs) = true := by
  intro l
  induction l with
  | nil => intro h; exact h
  | cons c cs ih =>
    intro h
    simp only [hasNonWsChar, List.any_cons, Bool.or_eq_true] at h
    by_cases hc : isJsWs c
    · rw [List.dropWhile_cons_of_pos hc]
      apply ih
      rcases h with h | h
      · simp [hc] at h
      · exact h
    · rw [List.dropWhile_cons_of_neg hc]
      simp only [hasNonWsChar, List.any_cons, Bool.or_eq_true]
      rcases h with h | h
      · exact Or.inl h
      · exact Or.inr h

theorem hasNonWs_reverse (l : List Char) :
    hasNonWsChar l.reverse = hasNonWsChar l := by
  simp [hasNonWsChar]

theorem trimChars_ne_nil {l : List Char} (h : hasNonWsChar l = true) :
    trimChars l ≠ [] := by
  unfold trimChars
  intro hnil
  rw [List.reverse_eq_nil_iff] at hnil
  have h1 := hasNonWs_dropWhile l h
  have h2 : hasNonWsChar (l.dropWhile isJsWs).reverse = true := by
    rw [hasNonWs_reverse]
    exact h1
  have h3 := hasNonWs_dropWhile _ h2
  rw [hnil] at h3
  simp [hasNonWsChar] at h3

/-- Non-blank word sources survive `composeChunkText`. -/
theorem composeChunkText_ne_empty (b : List WordEntry) (hb : b ≠ [])
    (hP : ∀ w ∈ b, jsTrim (composeSource w) ≠ "") :
    composeChunkText b ≠ "" := by
  unfold composeChunkText
  intro hempty
  have h1 : hasNonWsChar (composeRaw b).data = true := by
    apply composeRaw_hasNonWs b ""
    cases b with
    | nil => exact absurd rfl hb
    | cons w ws => exact Or.inr ⟨w, by simp, hP w (by simp)⟩
  have h2 := stripWsBeforeClosing_hasNonWs _ h1
  have h3 := stripWsAfterParenAux_hasNonWs _ false h2
  have h4 : trimChars (stripWsAfterParenAux false
      (stripWsBeforeClosing (composeRaw b).data)) = [] := by
    have := congrArg String.data hempty
    exact this
  exact trimChars_ne_nil h3 h4

/-- Invariant carried by every normalized word entry. -/
def WordSourceOk (w : WordEntry) : Prop :=
  w.text ≠ "" ∧ jsTrim (composeSource w) ≠ ""

theorem normalizeWordEntry_ok {x : Option RawWordEntry} {w : WordEntry}
    (h : normalizeWordEntry x = some w) : WordSourceOk w := by
  cases x with
  | none => cases h
  | some entry =>
    simp only [normalizeWordEntry] at h
    by_cases ht : jsTrim (((match entry.originalText with
        | some s => some s
        | none => entry.text) : Option String).getD "") = ""
    · rw [if_pos ht] at h
      cases h
    · rw [if_neg ht] at h
      cases h
      refine ⟨ht, ?_⟩
      unfold composeSource
      by_cases hlen : (((match entry.originalText with
          | some s => some s
          | none => entry.text) : Option String).getD "").length > 0
      · rw [if_pos hlen]
        exact ht
      · rw [if_neg hlen]
        rw [jsTrim_idem]
        exact ht

theorem jsSortInsert_mem {α : Type} (le : α → α → Bool) (x y : α) :
    ∀ l, y ∈ jsSortInsert le x l → y = x ∨ y ∈ l := by
  intro l
  induction l with
  | nil =>
    intro h
    simp [jsSortInsert] at h
    exact Or.inl h
  | cons z zs ih =>
    intro h
    unfold jsSortInsert at h
    by_cases hle : le z x
    · rw [if_pos hle] at h
      rcases List.mem_cons.mp h with h | h
      · exact Or.inr (by simp [h])
      · rcases ih h with h | h
        · exact Or.inl h
        · exact Or.inr (by simp [h])
    · rw [if_neg hle] at h
      rcases List.mem_cons.mp h with h | h
      · exact Or.inl h
      · exact Or.inr h

theorem jsSortByStart_mem {y : WordEntry} :
    ∀ (l acc : List WordEntry),
      y ∈ l.foldl (fun acc x =>
        jsSortInsert (fun a b => a.start ≤ b.start) x acc) acc →
      y ∈ acc ∨ y ∈ l := by
  intro l
  induction l with
  | nil => intro acc h; exact Or.inl h
  | cons x xs ih =>
    intro acc h
    rcases ih _ h with h | h
    · rcases jsSortInsert_mem _ x y acc h with h | h
      · exact Or.inr (by simp [h])
      · exact Or.inl h
    · exact Or.inr (by simp [h])

theorem normalizeWordEntries_ok (entries : Option (List (Option RawWordEntry))) :
    ∀ w ∈ normalizeWordEntries entries, WordSourceOk w := by
  intro w hw
  cases entries with
  | none => cases hw
  | some l =>
    unfold normalizeWordEntries jsSortByStart at hw
    rcases jsSortByStart_mem _ _ hw with h | h
    · cases h
    · obtain ⟨x, -, hx⟩ := List.mem_filterMap.mp h
      exact normalizeWordEntry_ok hx

theorem filterMap_length_of_all_some {α β : Type} (f : α → Option β) :
    ∀ l : List α, (∀ b ∈ l, f b ≠ none) → (l.filterMap f).length = l.length := by
  intro l
  induction l with
  | nil => intro _; rfl
  | cons x xs ih =>
    intro h
    cases hx : f x with
    | none => exact absurd hx (h x (by simp))
    | some y =>
      rw [List.filterMap_cons_some hx]
      simp [ih (fun b hb => h b (by simp [hb]))]

/-- **C5.** For every input list of word entries and any grouping
parameters (the phrase parameters and the word parameters alike),
`groupWordEntries` returns `[]` exactly when the normalized input is
empty; otherwise it returns at least one chunk, the flushed buffers
partition the normalized words (each word is consumed by exactly one
chunk), the buffer sizes sum to the number of normalized words, and there
is exactly one chunk per buffer. -/
theorem groupWordEntries_conservation :
    ∀ (entries : Option (List (Option RawWordEntry)))
      (minWords maxWords : Nat) (maxGapSeconds minDuration : Rat)
      (maxDuration : Option Rat),
      (normalizeWordEntries entries = [] →
        groupWordEntries entries minWords maxWords maxGapSeconds minDuration
          maxDuration = []) ∧
      (normalizeWordEntries entries ≠ [] →
        groupWordEntries entries minWords maxWords maxGapSeconds minDuration
          maxDuration ≠ [] ∧
        (groupWordBuffers entries minWords maxWords maxGapSeconds minDuration
          maxDuration).flatten = normalizeWordEntries entries ∧
        ((groupWordBuffers entries minWords maxWords maxGapSeconds minDuration
          maxDuration).map List.length).sum =
          (normalizeWordEntries entries).length ∧
        (groupWordEntries entries minWords maxWords maxGapSeconds minDuration
          maxDuration).length =
          (groupWordBuffers entries minWords maxWords maxGapSeconds minDuration
            maxDuration).length) := by
  intro entries minWords maxWords maxGapSeconds minDuration maxDuration
  constructor
  · intro hnil
    simp only [groupWordEntries]
    rw [if_pos (by simp [hnil])]
  · intro hne
    have hflat : (groupWordBuffers entries minWords maxWords maxGapSeconds
        minDuration maxDuration).flatten = normalizeWordEntries entries := by
      unfold groupWordBuffers
      rw [groupLoop_flatten]
      simp
    have hchunks : ∀ b ∈ groupWordBuffers entries minWords maxWords
        maxGapSeconds minDuration maxDuration, mkGroupChunk b ≠ none := by
      intro b hb
      have hbne : b ≠ [] := groupLoop_mem_ne_nil _ _ [] b hb
      have hPb : ∀ w ∈ b, jsTrim (composeSource w) ≠ "" := by
        intro w hw
        have hwmem : w ∈ normalizeWordEntries entries := by
          rw [← hflat]
          exact List.mem_join.mpr ⟨b, hb, hw⟩
        exact (normalizeWordEntries_ok entries w hwmem).2
      cases b with
      | nil => exact absurd rfl hbne
      | cons first rest =>
        simp only [mkGroupChunk, List.head?]
        rw [if_neg (composeChunkText_ne_empty (first :: rest) hbne hPb)]
        intro hcon
        cases hcon
    have hglen : ((groupWordBuffers entries minWords maxWords maxGapSeconds
        minDuration maxDuration).filterMap mkGroupChunk).length =
        (groupWordBuffers entries minWords maxWords maxGapSeconds minDuration
          maxDuration).length :=
      filterMap_length_of_all_some mkGroupChunk _ hchunks
    have hbne : groupWordBuffers entries minWords maxWords maxGapSeconds
        minDuration maxDuration ≠ [] := by
      intro h0
      rw [h0] at hflat
      exact hne hflat.symm
    have hgne : (groupWordBuffers entries minWords maxWords maxGapSeconds
        minDuration maxDuration).filterMap mkGroupChunk ≠ [] := by
      intro h0
      apply hbne
      have := congrArg List.length h0
      rw [hglen] at this
      exact List.length_eq_zero.mp this
    have hout : groupWordEntries entries minWords maxWords maxGapSeconds
        minDuration maxDuration =
        (groupWordBuffers entries minWords maxWords maxGapSeconds minDuration
          maxDuration).filterMap mkGroupChunk := by
      simp only [groupWordEntries]
      rw [if_neg (fun h => hne (List.isEmpty_iff.mp h))]
      rw [if_neg (fun h => hgne (List.isEmpty_iff.mp h))]
    refine ⟨?_, hflat, ?_, ?_⟩
    · rw [hout]
      exact hgne
    · rw [← hflat]
      exact (List.length_join _).symm
    · rw [hout]
      exact hglen

/-- Concrete word entries for the C5 witness. -/
def sampleWordEntries : Option (List (Option RawWordEntry)) :=
  some [some { originalText := some " Hello", text := none, start := some 0,
               startTime := none, end_ := some 1, endTime := none },
        some { originalText := none, text := some "world.", start := some 1,
               startTime := none, end_ := some 2, endTime := none },
        some { originalText := some "  ", text := some "dropped", start := some 2,
               startTime := none, end_ := some 3, endTime := none },
        none]

/-- Witness for C5 at a concrete input with the default phrase parameters:
two surviving words, one flushed buffer of two words, one chunk. -/
theorem groupWordEntries_conservation_witness :
    normalizeWordEntries sampleWordEntries ≠ [] ∧
    groupWordEntries sampleWordEntries 5 9 (mkRat 3 2) 1 (some (mkRat 9 2)) ≠ [] ∧
    ((groupWordBuffers sampleWordEntries 5 9 (mkRat 3 2) 1
      (some (mkRat 9 2))).map List.length).sum =
      (normalizeWordEntries sampleWordEntries).length := by
  have hne : normalizeWordEntries sampleWordEntries ≠ [] := by decide
  have h := (groupWordEntries_conservation sampleWordEntries 5 9 (mkRat 3 2) 1
    (some (mkRat 9 2))).2 hne
  exact ⟨hne, h.1, h.2.2.1⟩

/-! ### Orchestrator cleanup (index.js processVideo) -/

/-- The local filesystem, abstracted as the list of paths that exist. -/
def FS := List String

/-- Creating a file at path `p`. -/
def fsAdd (p : String) (fs : List String) : List String := p :: fs

/-- `fs.unlink(p)`: removing path `p` (errors swallowed, so removing an
absent path is a no-op). -/
def fsDelete (p : String) (fs : List String) : List String :=
  fs.filter (fun q => q != p)

/-- Oracle for the effectful steps of `processVideo`: which steps succeed
and which paths the externals choose. -/
structure ProcessOracle where
  extractOk : Bool
  audioPath : String
  transcribeOk : Bool
  translateOk : Bool
  analyzeOk : Bool
  exercisesOk : Bool
  normalizeOk : Bool
  normalizedPath : String
  needsRename : Bool
  renameOk : Bool
  sanitizedPath : String
  uploadOk : Bool
  validateOk : Bool
  saveOk : Bool
  writeOk : Bool
  jsonPath : String

/-- State of `processVideo` at the moment the `finally` block runs: the
filesystem, the two tracked local variables, and the `success` flag. -/
structure ProcState where
  fs : List String
  audioPath : Option String
  normalizedVideoPath : Option String
  success : Bool

/-- A throw in steps 2–5 or in the normalizer, before
`normalizedVideoPath` is assigned. -/
def failMid (o : ProcessOracle) (fs : List String) : ProcState :=
  { fs := fs
    audioPath := some o.audioPath
    normalizedVideoPath := none
    success := false }

/-- Steps 7–8: upload, validate, save to the database, write the JSON
sidecar; `success` is set only after all of them. -/
def afterUpload (o : ProcessOracle) (fs : List String) (normPath : String) :
    ProcState :=
  if o.uploadOk = false then
    { fs := fs
      audioPath := some o.audioPath
      normalizedVideoPath := some normPath
      success := false }
  else if o.validateOk = false then
    { fs := fs
      audioPath := some o.audioPath
      normalizedVideoPath := some normPath
      success := false }
  else if o.saveOk = false then
    { fs := fs
      audioPath := some o.audioPath
      normalizedVideoPath := some normPath
      success := false }
  else if o.writeOk = false then
    { fs := fs
      audioPath := some o.audioPath
      normalizedVideoPath := some normPath
      success := false }
  else
    { fs := fsAdd o.jsonPath fs
      audioPath := some o.audioPath
      normalizedVideoPath := some normPath
      success := true }

/-- Step 6b: rename the normalized file to the sanitized name when its
basename differs; on a rename failure the tracked variable still holds the
old normalized path. -/
def afterNormalize (o : ProcessOracle) (fs : List String) : ProcState :=
  if o.needsRename = false then afterUpload o fs o.normalizedPath
  else if o.renameOk = false then
    { fs := fs
      audioPath := some o.audioPath
      normalizedVideoPath := some o.normalizedPath
      success := false }
  else afterUpload o (fsAdd o.sanitizedPath (fsDelete o.normalizedPath fs))
    o.sanitizedPath

/-- The try-block of `processVideo`: the state handed to `finally`. -/
def processVideoBody (o : ProcessOracle) (fs0 : List String) : ProcState :=
  if o.extractOk = false then
    { fs := fs0
      audioPath := none
      normalizedVideoPath := none
      success := false }
  else
    let fs1 := fsAdd o.audioPath fs0
    if o.transcribeOk = false then failMid o fs1
    else if o.translateOk = false then failMid o fs1
    else if o.analyzeOk = false then failMid o fs1
    else if o.exercisesOk = false then failMid o fs1
    else if o.normalizeOk = false then failMid o fs1
    else afterNormalize o (fsAdd o.normalizedPath fs1)

/-- `if (audioPath) await fs.unlink(audioPath)`. -/
def fsDeleteOpt : Option String → List String → List String
  | some a, fs => fsDelete a fs
  | none, fs => fs

/-- `if (normalizedVideoPath && normalizedVideoPath !== videoPath)
await fs.unlink(normalizedVideoPath)`. -/
def fsDeleteNormOpt (videoPath : String) :
    Option String → List String → List String
  | some n, fs => if n = videoPath then fs else fsDelete n fs
  | none, fs => fs

/-- The `finally` block of `processVideo`: unlink the audio if set, the
normalized intermediate if set and distinct from the input, and the source
video iff `success`. -/
def processVideoCleanup (videoPath : String) (st : ProcState) : List String :=
  let fs1 := fsDeleteOpt st.audioPath st.fs
  let fs2 := fsDeleteNormOpt videoPath st.normalizedVideoPath fs1
  if st.success then fsDelete videoPath fs2 else fs2

/-- `processVideo`, abstracted: the filesystem after `finally` and whether
the orchestration succeeded. -/
def processVideo (o : ProcessOracle) (videoPath : String) (fs0 : List String) :
    List String × Bool :=
  let st := processVideoBody o fs0
  (processVideoCleanup videoPath st, st.success)

theorem mem_fsDelete {q p : String} {fs : List String} :
    q ∈ fsDelete p fs ↔ q ∈ fs ∧ q ≠ p := by
  simp [fsDelete]

theorem fsDelete_not_mem (p : String) (fs : List String) :
    p ∉ fsDelete p fs := by
  intro h
  exact (mem_fsDelete.mp h).2 rfl

theorem fsDelete_sub {q p : String} {fs : List String}
    (h : q ∈ fsDelete p fs) : q ∈ fs :=
  (mem_fsDelete.mp h).1

theorem fsDeleteOpt_sub {q : String} {p : Option String} {fs : List String}
    (h : q ∈ fsDeleteOpt p fs) : q ∈ fs := by
  cases p with
  | none => exact h
  | some a =>
    simp only [fsDeleteOpt] at h
    exact fsDelete_sub h

theorem fsDeleteNormOpt_sub {videoPath q : String} {p : Option String}
    {fs : List String} (h : q ∈ fsDeleteNormOpt videoPath p fs) : q ∈ fs := by
  cases p with
  | none => exact h
  | some n =>
    simp only [fsDeleteNormOpt] at h
    by_cases hn : n = videoPath
    · rw [if_pos hn] at h
      exact h
    · rw [if_neg hn] at h
      exact fsDelete_sub h

theorem cleanup_mem_sub {videoPath q : String} {st : ProcState}
    (h : q ∈ processVideoCleanup videoPath st) :
    q ∈ fsDeleteOpt st.audioPath st.fs := by
  unfold processVideoCleanup at h
  by_cases hs : st.success = true
  · rw [if_pos hs] at h
    exact fsDeleteNormOpt_sub (fsDelete_sub h)
  · rw [if_neg hs] at h
    exact fsDeleteNormOpt_sub h

theorem cleanup_audio_not_mem {videoPath : String} {st : ProcState}
    {a : String} (h : st.audioPath = some a) :
    a ∉ processVideoCleanup videoPath st := by
  intro hmem
  have h2 := cleanup_mem_sub hmem
  rw [h] at h2
  simp only [fsDeleteOpt] at h2
  exact fsDelete_not_mem a st.fs h2

theorem cleanup_normalized_not_mem {videoPath : String} {st : ProcState}
    {n : String} (h : st.normalizedVideoPath = some n) (hne : n ≠ videoPath) :
    n ∉ processVideoCleanup videoPath st := by
  intro hmem
  unfold processVideoCleanup at hmem
  have h2 : n ∈ fsDeleteNormOpt videoPath st.normalizedVideoPath
      (fsDeleteOpt st.audioPath st.fs) := by
    by_cases hs : st.success = true
    · rw [if_pos hs] at hmem
      exact fsDelete_sub hmem
    · rw [if_neg hs] at hmem
      exact hmem
  rw [h] at h2
  simp only [fsDeleteNormOpt] at h2
  rw [if_neg hne] at h2
  exact fsDelete_not_mem n _ h2

theorem cleanup_video_success {videoPath : String} {st : ProcState}
    (h : st.success = true) :
    videoPath ∉ processVideoCleanup videoPath st := by
  intro hmem
  unfold processVideoCleanup at hmem
  rw [h, if_pos rfl] at hmem
  exact fsDelete_not_mem videoPath _ hmem

theorem cleanup_video_failure {videoPath : String} {st : ProcState}
    (h : st.success = false) (hfs : videoPath ∈ st.fs)
    (ha : ∀ a, st.audioPath = some a → a ≠ videoPath) :
    videoPath ∈ processVideoCleanup videoPath st := by
  unfold processVideoCleanup
  rw [h]
  simp only [Bool.false_eq_true, if_false]
  have h1 : videoPath ∈ fsDeleteOpt st.audioPath st.fs := by
    cases hap : st.audioPath with
    | none => exact hfs
    | some a =>
      simp only [fsDeleteOpt]
      exact mem_fsDelete.mpr ⟨hfs, fun he => ha a hap he.symm⟩
  cases hnp : st.normalizedVideoPath with
  | none => exact h1
  | some n =>
    simp only [fsDeleteNormOpt]
    by_cases hn : n = videoPath
    · rw [if_pos hn]
      exact h1
    · rw [if_neg hn]
      exact mem_fsDelete.mpr ⟨h1, fun he => hn he.symm⟩

theorem afterUpload_audio (o : ProcessOracle) (fs : List String)
    (normPath : String) :
    (afterUpload o fs normPath).audioPath = some o.audioPath := by
  unfold afterUpload
  split
  · rfl
  · split
    · rfl
    · split
      · rfl
      · split
        · rfl
        · rfl

theorem afterUpload_mem {q : String} (o : ProcessOracle) {fs : List String}
    (normPath : String) (h : q ∈ fs) :
    q ∈ (afterUpload o fs normPath).fs := by
  unfold afterUpload
  split
  · exact h
  · split
    · exact h
    · split
      · exact h
      · split
        · exact h
        · exact List.mem_cons_of_mem _ h

theorem afterNormalize_audio (o : ProcessOracle) (fs : List String) :
    (afterNormalize o fs).audioPath = some o.audioPath := by
  unfold afterNormalize
  split
  · exact afterUpload_audio o fs o.normalizedPath
  · split
    · rfl
    · exact afterUpload_audio o _ o.sanitizedPath

theorem afterNormalize_mem {q : String} (o : ProcessOracle) {fs : List String}
    (h : q ∈ fs) (hq : q ≠ o.normalizedPath) :
    q ∈ (afterNormalize o fs).fs := by
  unfold afterNormalize
  split
  · exact afterUpload_mem o o.normalizedPath h
  · split
    · exact h
    · exact afterUpload_mem o o.sanitizedPath
        (List.mem_cons_of_mem _ (mem_fsDelete.mpr ⟨h, hq⟩))

theorem processVideoBody_audio {o : ProcessOracle} {fs0 : List String}
    {a : String} (h : (processVideoBody o fs0).audioPath = some a) :
    a = o.audioPath := by
  unfold processVideoBody at h
  split at h
  · cases h
  · split at h
    · cases h; rfl
    · split at h
      · cases h; rfl
      · split at h
        · cases h; rfl
        · split at h
          · cases h; rfl
          · split at h
            · cases h; rfl
            · rw [afterNormalize_audio] at h
              cases h; rfl

theorem processVideoBody_video_mem {o : ProcessOracle} {videoPath : String}
    {fs0 : List String} (h : videoPath ∈ fs0)
    (hn : o.normalizedPath ≠ videoPath) :
    videoPath ∈ (processVideoBody o fs0).fs := by
  unfold processVideoBody
  split
  · exact h
  · split
    · exact List.mem_cons_of_mem _ h
    · split
      · exact List.mem_cons_of_mem _ h
      · split
        · exact List.mem_cons_of_mem _ h
        · split
          · exact List.mem_cons_of_mem _ h
          · split
            · exact List.mem_cons_of_mem _ h
            · exact afterNormalize_mem o
                (List.mem_cons_of_mem _ (List.mem_cons_of_mem _ h))
                (fun he => hn he.symm)

/-- **C7.** On every exit path of `processVideo` (any combination of step
successes and failures, captured by the oracle): the extracted audio WAV,
if created, is absent from the final filesystem; the tracked normalized
intermediate, if set and distinct from the input video, is absent; and the
source local video is present after the `finally` block if and only if the
orchestration did not succeed — in particular, on any failure path the
source local video remains on disk when `processVideo` returns. -/
theorem processVideo_cleanup_contract (o : ProcessOracle)
    (videoPath : String) (fs0 : List String)
    (hmem : videoPath ∈ fs0) (ha : o.audioPath ≠ videoPath)
    (hn : o.normalizedPath ≠ videoPath) :
    (∀ a, (processVideoBody o fs0).audioPath = some a →
      a ∉ (processVideo o videoPath fs0).1) ∧
    (∀ n, (processVideoBody o fs0).normalizedVideoPath = some n →
      n ≠ videoPath → n ∉ (processVideo o videoPath fs0).1) ∧
    (videoPath ∈ (processVideo o videoPath fs0).1 ↔
      (processVideo o videoPath fs0).2 = false) := by
  refine ⟨?_, ?_, ?_⟩
  · intro a hA
    exact cleanup_audio_not_mem hA
  · intro n hN hne
    exact cleanup_normalized_not_mem hN hne
  · show videoPath ∈ processVideoCleanup videoPath (processVideoBody o fs0) ↔
      (processVideoBody o fs0).success = false
    constructor
    · intro hv
      by_contra hns
      have hs : (processVideoBody o fs0).success = true := by
        cases hsb : (processVideoBody o fs0).success
        · exact absurd hsb hns
        · rfl
      exact cleanup_video_success hs hv
    · intro hs
      exact cleanup_video_failure hs (processVideoBody_video_mem hmem hn)
        (fun a hA he => ha ((processVideoBody_audio hA).symm.trans he))

/-- A fully successful oracle run for the C7 witness: rename needed, every
step succeeds. -/
def sampleOracleC7 : ProcessOracle :=
  { extractOk := true
    audioPath := "/tmp/a.wav"
    transcribeOk := true
    translateOk := true
    analyzeOk := true
    exercisesOk := true
    normalizeOk := true
    normalizedPath := "/tmp/norm.mp4"
    needsRename := true
    renameOk := true
    sanitizedPath := "/tmp/safe.mp4"
    uploadOk := true
    validateOk := true
    saveOk := true
    writeOk := true
    jsonPath := "/out/safe.json" }

/-- Witness for C7 at a concrete successful run: the hypotheses hold and
the cleanup contract follows by applying the theorem. -/
theorem processVideo_cleanup_contract_witness :
    ("/in/v.mp4" ∈ (["/in/v.mp4"] : List String) ∧
      sampleOracleC7.audioPath ≠ "/in/v.mp4" ∧
      sampleOracleC7.normalizedPath ≠ "/in/v.mp4") ∧
    ((∀ a, (processVideoBody sampleOracleC7 ["/in/v.mp4"]).audioPath = some a →
      a ∉ (processVideo sampleOracleC7 "/in/v.mp4" ["/in/v.mp4"]).1) ∧
    (∀ n, (processVideoBody sampleOracleC7
        ["/in/v.mp4"]).normalizedVideoPath = some n →
      n ≠ "/in/v.mp4" →
      n ∉ (processVideo sampleOracleC7 "/in/v.mp4" ["/in/v.mp4"]).1) ∧
    ("/in/v.mp4" ∈ (processVideo sampleOracleC7 "/in/v.mp4" ["/in/v.mp4"]).1 ↔
      (processVideo sampleOracleC7 "/in/v.mp4" ["/in/v.mp4"]).2 = false)) :=
  ⟨⟨by decide, by decide, by decide⟩,
    processVideo_cleanup_contract sampleOracleC7 "/in/v.mp4" ["/in/v.mp4"]
      (by decide) (by decide) (by decide)⟩

end VideoPipeline
